import Mathlib

/-!
Shallow embedding of `reconstruct.py`, a decision procedure for single-head
equivalence of propositional Horn-like formulas.

The Python program represents a literal as a string: a variable token
prefixed by some number of `-` characters (`'a'`, `'-a'`, and — reachable
through the parser — `'--a'`).  We model a literal as the pair of its dash
count and its variable, a clause as a finite set of literals, and a formula
as a finite set of clauses.  Python iterates over hash sets in an
unspecified but fixed order; the embedding fixes a canonical enumeration
order (sorting by a linear order).  Code that can raise `StopIteration`
(`head` applied to a clause with no positive literal) is modelled in the
`Except Unit` monad.  `while` loops are translated as structurally
recursive functions on a fuel argument large enough to reach the fixpoint;
sufficiency of the fuel is proved, so the fuel-exhaustion branch of each
loop is unreachable.
-/

/-- A literal: `neg` is the number of leading `-` characters of the Python
string, `v` identifies the variable token. -/
structure Lit where
  neg : Nat
  v : Nat
deriving DecidableEq

/-- `'-' + l`: prefix one more dash. -/
def Lit.negate (l : Lit) : Lit := ⟨l.neg + 1, l.v⟩

/-- `l[1:]` applied to a literal that starts with a dash: strip one dash. -/
def Lit.strip (l : Lit) : Lit := ⟨l.neg - 1, l.v⟩

/-- `l[0] != '-'` : the literal is positive. -/
def Lit.pos (l : Lit) : Prop := l.neg = 0

instance (l : Lit) : Decidable l.pos := inferInstanceAs (Decidable (l.neg = 0))

theorem Lit.negate_injective : Function.Injective Lit.negate := by
  intro a b h
  cases a; cases b
  simpa [Lit.negate] using h

/-- Canonical linear order on literals (dash count first, then variable). -/
instance : LinearOrder Lit :=
  LinearOrder.lift' (fun l => toLex (l.v, l.neg)) (by
    intro a b h
    obtain ⟨h1, h2⟩ : a.v = b.v ∧ a.neg = b.neg := by
      cases a; cases b; simpa [toLex] using h
    cases a; cases b
    simp_all)

/-- A clause: a finite set of literals (Python `frozenset`). -/
abbrev Clause := Finset Lit

/-- A formula: a finite set of clauses (Python `set` of `frozenset`s). -/
abbrev Formula := Finset Clause

/-- Canonical enumeration of a clause's literals (the embedding's stand-in
for Python's set-iteration order).  Insertion sort is used because it is
structurally recursive, hence evaluates inside the kernel. -/
def enumLits (c : Clause) : List Lit :=
  Quotient.liftOn c.val (fun l => l.insertionSort (· ≤ ·))
    (fun l1 l2 h =>
      List.eq_of_perm_of_sorted
        ((l1.perm_insertionSort (· ≤ ·)).trans (h.trans (l2.perm_insertionSort (· ≤ ·)).symm))
        (List.sorted_insertionSort (· ≤ ·) l1)
        (List.sorted_insertionSort (· ≤ ·) l2))

theorem mem_enumLits {c : Clause} {x : Lit} : x ∈ enumLits c ↔ x ∈ c := by
  rcases c with ⟨m, hnd⟩
  induction m using Quotient.inductionOn with
  | h l =>
    show x ∈ l.insertionSort (· ≤ ·) ↔ _
    rw [(l.perm_insertionSort (· ≤ ·)).mem_iff]
    simp [Finset.mem_mk]

theorem enumLits_injective : Function.Injective enumLits := by
  intro a b h
  ext x
  rw [← mem_enumLits, ← mem_enumLits, h]

/-- Order on clauses: lexicographic on the sorted literal lists.  Used only
to fix the canonical enumeration order of sets of clauses. -/
def clauseLE (a b : Clause) : Prop := enumLits a ≤ enumLits b

instance : DecidableRel clauseLE :=
  fun a b => inferInstanceAs (Decidable (enumLits a ≤ enumLits b))

instance : IsTrans Clause clauseLE := ⟨fun _ _ _ h1 h2 => le_trans h1 h2⟩

instance : IsAntisymm Clause clauseLE :=
  ⟨fun _ _ h1 h2 => enumLits_injective (le_antisymm h1 h2)⟩

instance : IsTotal Clause clauseLE := ⟨fun a b => le_total _ _⟩

/-- Canonical enumeration of a set of clauses. -/
def enumClauses (s : Finset Clause) : List Clause :=
  Quotient.liftOn s.val (fun l => l.insertionSort clauseLE)
    (fun l1 l2 h =>
      List.eq_of_perm_of_sorted
        ((l1.perm_insertionSort clauseLE).trans (h.trans (l2.perm_insertionSort clauseLE).symm))
        (List.sorted_insertionSort clauseLE l1)
        (List.sorted_insertionSort clauseLE l2))

theorem mem_enumClauses {s : Finset Clause} {c : Clause} :
    c ∈ enumClauses s ↔ c ∈ s := by
  rcases s with ⟨m, hnd⟩
  induction m using Quotient.inductionOn with
  | h l =>
    show c ∈ l.insertionSort clauseLE ↔ _
    rw [(l.perm_insertionSort clauseLE).mem_iff]
    simp [Finset.mem_mk]

/-- `tautology(c)`: some literal occurs together with its negation. -/
def tautology (c : Clause) : Prop := ∃ l ∈ c, l.negate ∈ c

instance (c : Clause) : Decidable (tautology c) :=
  inferInstanceAs (Decidable (∃ l ∈ c, l.negate ∈ c))

/-- `detautologize(s)`: drop tautological clauses. -/
def detautologize (s : Formula) : Formula := s.filter (fun c => ¬ tautology c)

/-- The scan of `resolve`: find the first complementary pair, `x` ranging
over `a`'s literals (outer loop), `y` over `b`'s (inner loop). -/
def resolveFind : List Lit → List Lit → Option (Lit × Lit)
  | [], _ => none
  | x :: xs, lb =>
    match lb.find? (fun y => decide (x = y.negate ∨ x.negate = y)) with
    | some y => some (x, y)
    | none => resolveFind xs lb

/-- The body of `resolve(a, b)` with the scan order of the two literal
sets made explicit (`la`, `lb` are the iteration orders of `a`, `b`). -/
def resolveWith (a b : Clause) (la lb : List Lit) : Finset Clause :=
  match resolveFind la lb with
  | some (x, y) =>
    let r := a.erase x ∪ b.erase y
    if tautology r then ∅ else {r}
  | none => ∅

/-- `resolve(a, b)`: resolve on the first complementary pair found; empty
set if there is none or the resolvent is a tautology. -/
def resolve (a b : Clause) : Finset Clause :=
  resolveWith a b (enumLits a) (enumLits b)

/-- `minimal(s, e)`: clauses of `s` with no strict subset in `s ∪ e`. -/
def minimal (s e : Finset Clause) : Finset Clause :=
  s.filter (fun c => ¬ ∃ d ∈ s ∪ e, d ⊂ c)

/-- `issinglehead(e)`: the list of all positive-literal occurrences across
the clauses of `e` has no duplicates. -/
def issinglehead (e : Formula) : Prop :=
  (e.val.bind (fun c => (c.filter (fun l => l.neg = 0)).val)).Nodup

instance (e : Formula) : Decidable (issinglehead e) :=
  inferInstanceAs (Decidable (Multiset.Nodup _))

/-- The value produced by `head(c)` when it is defined: the canonical first
positive literal of the clause. -/
def headOpt (c : Clause) : Option Lit :=
  (enumLits (c.filter (fun l => l.neg = 0))).head?

/-- `head(c)`: `next()` over the positive literals; raises `StopIteration`
(modelled as `.error ()`) when the clause has none. -/
def headE (c : Clause) : Except Unit Lit :=
  match headOpt c with
  | some h => .ok h
  | none => .error ()

/-- `body(c)`: the variables of the negative literals, one dash stripped. -/
def body (c : Clause) : Finset Lit :=
  (c.filter (fun l => l.neg ≠ 0)).image Lit.strip

/-- `bodies(f)`: the set of bodies of the clauses of `f`. -/
def bodies (f : Formula) : Finset (Finset Lit) := f.image body

/-- One pass of the `rcnucl` loop: scan the clauses in order; a clause
whose body is contained in `b ∪ heads` is added to `usable` and its head
to `heads` (raising if it has no head). -/
def rcnPass (b : Finset Lit) : Finset Lit → Finset Clause → List Clause →
    Except Unit (Finset Lit × Finset Clause)
  | heads, usable, [] => .ok (heads, usable)
  | heads, usable, c :: rest =>
    if body c ⊆ b ∪ heads then
      match headOpt c with
      | none => .error ()
      | some h => rcnPass b (insert h heads) (insert c usable) rest
    else rcnPass b heads usable rest

/-- The `while heads != prev` loop of `rcnucl`, on fuel. -/
def rcnGo (b : Finset Lit) (l : List Clause) :
    Nat → Finset Lit → Finset Clause →
    Option (Except Unit (Finset Lit × Finset Clause))
  | 0, _, _ => none
  | fuel + 1, heads, usable =>
    match rcnPass b heads usable l with
    | .error e => some (.error e)
    | .ok (h1, u1) =>
      if h1 = heads then some (.ok (h1, minimal u1 ∅)) else rcnGo b l fuel h1 u1

/-- All head literals the clauses of `l` can contribute. -/
def headsUniv (l : List Clause) : Finset Lit := (l.filterMap headOpt).toFinset

/-- Fuel sufficient for the `rcnucl` loop. -/
def rcnFuel (l : List Clause) : Nat := (headsUniv l).card + 1

theorem rcnPass_grows {b : Finset Lit} {heads h1 : Finset Lit}
    {usable u1 : Finset Clause} :
    ∀ {l : List Clause}, rcnPass b heads usable l = .ok (h1, u1) →
      heads ⊆ h1 ∧ h1 ⊆ heads ∪ headsUniv l ∧ usable ⊆ u1 := by
  intro l
  induction l generalizing heads usable with
  | nil =>
    intro h
    simp only [rcnPass, Except.ok.injEq, Prod.mk.injEq] at h
    obtain ⟨rfl, rfl⟩ := h
    exact ⟨le_refl _, by simp [headsUniv], le_refl _⟩
  | cons c rest ih =>
    intro h
    simp only [rcnPass] at h
    by_cases hb : body c ⊆ b ∪ heads
    · rw [if_pos hb] at h
      cases hh : headOpt c with
      | none => rw [hh] at h; exact absurd h (by simp)
      | some hd =>
        rw [hh] at h
        obtain ⟨hs, hu, hus⟩ := ih h
        refine ⟨subset_trans (Finset.subset_insert _ _) hs, ?_,
          subset_trans (Finset.subset_insert _ _) hus⟩
        intro x hx
        rcases Finset.mem_union.1 (hu hx) with hx' | hx'
        · rcases Finset.mem_insert.1 hx' with rfl | hx''
          · exact Finset.mem_union.2 (Or.inr (by
              simp only [headsUniv, List.mem_toFinset, List.mem_filterMap]
              exact ⟨c, by simp, hh⟩))
          · exact Finset.mem_union.2 (Or.inl hx'')
        · refine Finset.mem_union.2 (Or.inr ?_)
          simp only [headsUniv, List.mem_toFinset, List.mem_filterMap] at hx' ⊢
          obtain ⟨d, hd1, hd2⟩ := hx'
          exact ⟨d, by simp [hd1], hd2⟩
    · rw [if_neg hb] at h
      obtain ⟨hs, hu, hus⟩ := ih h
      refine ⟨hs, ?_, hus⟩
      intro x hx
      rcases Finset.mem_union.1 (hu hx) with hx' | hx'
      · exact Finset.mem_union.2 (Or.inl hx')
      · refine Finset.mem_union.2 (Or.inr ?_)
        simp only [headsUniv, List.mem_toFinset, List.mem_filterMap] at hx' ⊢
        obtain ⟨d, hd1, hd2⟩ := hx'
        exact ⟨d, by simp [hd1], hd2⟩

theorem rcnGo_ne_none {b : Finset Lit} {l : List Clause} :
    ∀ {fuel : Nat} {heads : Finset Lit} {usable : Finset Clause},
      (headsUniv l \ heads).card < fuel →
      rcnGo b l fuel heads usable ≠ none := by
  intro fuel
  induction fuel with
  | zero => intro heads usable h; omega
  | succ n ih =>
    intro heads usable h
    simp only [rcnGo]
    split
    · simp
    · rename_i h1 u1 hp
      by_cases he : h1 = heads
      · simp [he]
      · rw [if_neg he]
        obtain ⟨hs, hu, _⟩ := rcnPass_grows hp
        refine ih ?_
        have hss : heads ⊂ h1 := Finset.ssubset_iff_subset_ne.2 ⟨hs, Ne.symm he⟩
        obtain ⟨x, hx1, hx2⟩ := Finset.exists_of_ssubset hss
        have hxu : x ∈ headsUniv l := by
          rcases Finset.mem_union.1 (hu hx1) with h' | h'
          · exact absurd h' hx2
          · exact h'
        have hsub : headsUniv l \ h1 ⊆ (headsUniv l \ heads).erase x := by
          intro y hy
          rcases Finset.mem_sdiff.1 hy with ⟨hy1, hy2⟩
          refine Finset.mem_erase.2 ⟨?_, Finset.mem_sdiff.2 ⟨hy1, ?_⟩⟩
          · rintro rfl; exact hy2 hx1
          · intro hc; exact hy2 (hs hc)
        calc (headsUniv l \ h1).card ≤ ((headsUniv l \ heads).erase x).card :=
              Finset.card_le_card hsub
          _ < (headsUniv l \ heads).card := by
              have : x ∈ headsUniv l \ heads := Finset.mem_sdiff.2 ⟨hxu, hx2⟩
              have := Finset.card_erase_lt_of_mem this
              omega
          _ ≤ n := by omega

theorem rcnGo_isSome (b : Finset Lit) (l : List Clause) :
    (rcnGo b l (rcnFuel l) ∅ ∅).isSome :=
  Option.ne_none_iff_isSome.1 (rcnGo_ne_none (by simp [rcnFuel]))

/-- `rcnucl` over an explicit enumeration order of the formula. -/
def rcnuclL (b : Finset Lit) (l : List Clause) :
    Except Unit (Finset Lit × Finset Clause) :=
  (rcnGo b l (rcnFuel l) ∅ ∅).get (rcnGo_isSome b l)

theorem rcnGo_eq_some_rcnuclL (b : Finset Lit) (l : List Clause) :
    rcnGo b l (rcnFuel l) ∅ ∅ = some (rcnuclL b l) :=
  (Option.some_get (rcnGo_isSome b l)).symm

/-- `rcnucl(b, f)`: the reachable heads and the minimized usable clauses. -/
def rcnucl (b : Finset Lit) (f : Formula) :
    Except Unit (Finset Lit × Finset Clause) :=
  rcnuclL b (enumClauses f)

/-! ### Properties of `headOpt` -/

theorem headOpt_spec {c : Clause} {h : Lit} (hh : headOpt c = some h) :
    h ∈ c ∧ h.neg = 0 := by
  have hm : h ∈ enumLits (c.filter (fun l => l.neg = 0)) :=
    List.mem_of_mem_head? (Option.mem_def.2 hh)
  have := mem_enumLits.1 hm
  exact ⟨(Finset.mem_filter.1 this).1, (Finset.mem_filter.1 this).2⟩

theorem enumLits_eq_nil_iff {s : Clause} : enumLits s = [] ↔ s = ∅ := by
  constructor
  · intro h
    ext x
    simp only [Finset.not_mem_empty, iff_false]
    intro hx
    have := mem_enumLits.2 hx
    rw [h] at this
    exact absurd this (by simp)
  · rintro rfl
    rfl

theorem headOpt_eq_none_iff {c : Clause} :
    headOpt c = none ↔ c.filter (fun l => l.neg = 0) = ∅ := by
  unfold headOpt
  rw [List.head?_eq_none_iff]
  exact enumLits_eq_nil_iff

theorem headOpt_isSome_of_pos {c : Clause}
    (h : (c.filter (fun l => l.neg = 0)).Nonempty) : ∃ hd, headOpt c = some hd := by
  cases hv : headOpt c with
  | none =>
    rw [headOpt_eq_none_iff] at hv
    rw [hv] at h
    exact absurd h (by simp)
  | some hd => exact ⟨hd, rfl⟩

/-! ### The forward-chaining fixpoint -/

/-- Forward-chaining derivability of a head from the literal set `b` using
the clauses of `f`: the least fixpoint that the `rcnucl` loop computes. -/
inductive Reach (b : Finset Lit) (f : Finset Clause) : Lit → Prop where
  | intro (c : Clause) (hc : c ∈ f) (h : Lit) (hh : headOpt c = some h)
      (hb : ∀ l ∈ body c, l ∉ b → Reach b f l) : Reach b f h

theorem Reach.mono_base {b b' : Finset Lit} {f : Finset Clause} (hbb : b ⊆ b')
    {h : Lit} (hr : Reach b f h) : Reach b' f h := by
  induction hr with
  | intro c hc hd hh hb ih =>
    refine Reach.intro c hc hd hh ?_
    intro l hl hlb
    exact ih l hl (fun hmem => hlb (hbb hmem))

theorem Reach.mono_formula {b : Finset Lit} {f f' : Finset Clause} (hff : f ⊆ f')
    {h : Lit} (hr : Reach b f h) : Reach b f' h := by
  induction hr with
  | intro c hc hd hh hb ih =>
    exact Reach.intro c (hff hc) hd hh (fun l hl hlb => ih l hl hlb)

theorem rcnPass_sound {b : Finset Lit} {F : Finset Clause} :
    ∀ {l : List Clause} {heads h1 : Finset Lit} {usable u1 : Finset Clause},
      (∀ c ∈ l, c ∈ F) → (∀ h ∈ heads, Reach b F h) →
      rcnPass b heads usable l = .ok (h1, u1) → ∀ h ∈ h1, Reach b F h := by
  intro l
  induction l with
  | nil =>
    intro heads h1 usable u1 _ hinv hp
    simp only [rcnPass, Except.ok.injEq, Prod.mk.injEq] at hp
    obtain ⟨rfl, rfl⟩ := hp
    exact hinv
  | cons c rest ih =>
    intro heads h1 usable u1 hl hinv hp
    simp only [rcnPass] at hp
    by_cases hb : body c ⊆ b ∪ heads
    · rw [if_pos hb] at hp
      cases hh : headOpt c with
      | none => rw [hh] at hp; exact absurd hp (by simp)
      | some hd =>
        rw [hh] at hp
        refine ih (fun x hx => hl x (by simp [hx])) ?_ hp
        intro h' hh'
        rcases Finset.mem_insert.1 hh' with rfl | hmem
        · refine Reach.intro c (hl c (by simp)) h' hh ?_
          intro x hx hxb
          rcases Finset.mem_union.1 (hb hx) with h1' | h1'
          · exact absurd h1' hxb
          · exact hinv x h1'
        · exact hinv h' hmem
    · rw [if_neg hb] at hp
      exact ih (fun x hx => hl x (by simp [hx])) hinv hp

theorem rcnPass_usable {b : Finset Lit} {F : Finset Clause} :
    ∀ {l : List Clause} {heads h1 : Finset Lit} {usable u1 : Finset Clause},
      (∀ c ∈ l, c ∈ F) →
      (∀ c ∈ usable, c ∈ F ∧ body c ⊆ b ∪ heads) →
      rcnPass b heads usable l = .ok (h1, u1) →
      ∀ c ∈ u1, c ∈ F ∧ body c ⊆ b ∪ h1 := by
  intro l
  induction l with
  | nil =>
    intro heads h1 usable u1 _ hinv hp
    simp only [rcnPass, Except.ok.injEq, Prod.mk.injEq] at hp
    obtain ⟨rfl, rfl⟩ := hp
    exact hinv
  | cons c rest ih =>
    intro heads h1 usable u1 hl hinv hp
    simp only [rcnPass] at hp
    by_cases hb : body c ⊆ b ∪ heads
    · rw [if_pos hb] at hp
      cases hh : headOpt c with
      | none => rw [hh] at hp; exact absurd hp (by simp)
      | some hd =>
        rw [hh] at hp
        refine ih (fun x hx => hl x (by simp [hx])) ?_ hp
        intro d hd'
        rcases Finset.mem_insert.1 hd' with rfl | hmem
        · exact ⟨hl d (by simp),
            subset_trans hb (Finset.union_subset_union_right (Finset.subset_insert _ _))⟩
        · obtain ⟨hdf, hdb⟩ := hinv d hmem
          exact ⟨hdf,
            subset_trans hdb (Finset.union_subset_union_right (Finset.subset_insert _ _))⟩
    · rw [if_neg hb] at hp
      exact ih (fun x hx => hl x (by simp [hx])) hinv hp

theorem rcnPass_stable {b : Finset Lit} :
    ∀ {l : List Clause} {heads : Finset Lit} {usable u1 : Finset Clause},
      rcnPass b heads usable l = .ok (heads, u1) →
      ∀ c ∈ l, body c ⊆ b ∪ heads →
        (∃ h, headOpt c = some h ∧ h ∈ heads) ∧ c ∈ u1 := by
  intro l
  induction l with
  | nil => intro heads usable u1 _ c hc; exact absurd hc (by simp)
  | cons c rest ih =>
    intro heads usable u1 hp d hd hdb
    simp only [rcnPass] at hp
    by_cases hb : body c ⊆ b ∪ heads
    · rw [if_pos hb] at hp
      cases hh : headOpt c with
      | none => rw [hh] at hp; exact absurd hp (by simp)
      | some hd' =>
        rw [hh] at hp
        have hp' : rcnPass b (insert hd' heads) (insert c usable) rest =
            Except.ok (heads, u1) := hp
        have hgrow := rcnPass_grows hp'
        have hmemh : hd' ∈ heads := hgrow.1 (Finset.mem_insert_self _ _)
        have hins : insert hd' heads = heads := Finset.insert_eq_self.2 hmemh
        rw [hins] at hp'
        rcases List.mem_cons.1 hd with rfl | hmem
        · exact ⟨⟨hd', hh, hmemh⟩,
            (rcnPass_grows hp').2.2 (Finset.mem_insert_self _ _)⟩
        · exact ih hp' d hmem hdb
    · rw [if_neg hb] at hp
      rcases List.mem_cons.1 hd with rfl | hmem
      · exact absurd hdb hb
      · exact ih hp d hmem hdb

theorem rcnPass_error {b : Finset Lit} {F : Finset Clause} :
    ∀ {l : List Clause} {heads : Finset Lit} {usable : Finset Clause},
      (∀ c ∈ l, c ∈ F) → (∀ h ∈ heads, Reach b F h) →
      rcnPass b heads usable l = .error () →
      ∃ c ∈ F, headOpt c = none ∧ ∀ x ∈ body c, x ∉ b → Reach b F x := by
  intro l
  induction l with
  | nil => intro heads usable _ _ hp; exact absurd hp (by simp [rcnPass])
  | cons c rest ih =>
    intro heads usable hl hinv hp
    simp only [rcnPass] at hp
    by_cases hb : body c ⊆ b ∪ heads
    · rw [if_pos hb] at hp
      cases hh : headOpt c with
      | none =>
        refine ⟨c, hl c (by simp), hh, ?_⟩
        intro x hx hxb
        rcases Finset.mem_union.1 (hb hx) with h1' | h1'
        · exact absurd h1' hxb
        · exact hinv x h1'
      | some hd =>
        rw [hh] at hp
        refine ih (fun x hx => hl x (by simp [hx])) ?_ hp
        intro h' hh'
        rcases Finset.mem_insert.1 hh' with rfl | hmem
        · refine Reach.intro c (hl c (by simp)) h' hh ?_
          intro x hx hxb
          rcases Finset.mem_union.1 (hb hx) with h1' | h1'
          · exact absurd h1' hxb
          · exact hinv x h1'
        · exact hinv h' hmem
    · rw [if_neg hb] at hp
      exact ih (fun x hx => hl x (by simp [hx])) hinv hp

theorem rcnGo_ok {b : Finset Lit} {l : List Clause} :
    ∀ {fuel : Nat} {heads H : Finset Lit} {usable U : Finset Clause},
      (∀ h ∈ heads, Reach b l.toFinset h) →
      (∀ c ∈ usable, c ∈ l.toFinset ∧ body c ⊆ b ∪ heads) →
      rcnGo b l fuel heads usable = some (.ok (H, U)) →
      (∀ h, h ∈ H ↔ Reach b l.toFinset h) ∧
      (∀ c ∈ l.toFinset, body c ⊆ b ∪ H → ∃ hd, headOpt c = some hd ∧ hd ∈ H) ∧
      U = minimal ((l.toFinset).filter (fun c => body c ⊆ b ∪ H)) ∅ := by
  intro fuel
  induction fuel with
  | zero => intro heads H usable U _ _ hgo; exact absurd hgo (by simp [rcnGo])
  | succ n ih =>
    intro heads H usable U hinv1 hinv2 hgo
    simp only [rcnGo] at hgo
    split at hgo
    · exact absurd hgo (by simp)
    · rename_i h1 u1 hp
      by_cases he : h1 = heads
      · rw [if_pos he] at hgo
        simp only [Option.some.injEq, Except.ok.injEq, Prod.mk.injEq] at hgo
        obtain ⟨hH, hU⟩ := hgo
        have hp' : rcnPass b heads usable l = Except.ok (heads, u1) := by
          rw [he] at hp; exact hp
        have hHh : H = heads := hH.symm.trans he
        rw [hHh, ← hU]
        refine ⟨?_, ?_, ?_⟩
        · intro h
          constructor
          · exact hinv1 h
          · intro hr
            induction hr with
            | intro c hc hd hh hb ihh =>
              have hcl : c ∈ l := List.mem_toFinset.1 hc
              have hbody : body c ⊆ b ∪ heads := by
                intro x hx
                by_cases hxb : x ∈ b
                · exact Finset.mem_union.2 (Or.inl hxb)
                · exact Finset.mem_union.2 (Or.inr (ihh x hx hxb))
              obtain ⟨⟨h', hh', hm⟩, _⟩ := rcnPass_stable hp' c hcl hbody
              rw [hh] at hh'
              cases hh'
              exact hm
        · intro c hc hcb
          exact (rcnPass_stable hp' c (List.mem_toFinset.1 hc) hcb).1
        · have hu1 : u1 = (l.toFinset).filter (fun c => body c ⊆ b ∪ heads) := by
            ext c
            simp only [Finset.mem_filter]
            constructor
            · intro hcu
              exact rcnPass_usable (fun x hx => List.mem_toFinset.2 hx) hinv2 hp' c hcu
            · rintro ⟨hcf, hcb⟩
              exact (rcnPass_stable hp' c (List.mem_toFinset.1 hcf) hcb).2
          rw [hu1]
      · rw [if_neg he] at hgo
        exact ih (rcnPass_sound (fun x hx => List.mem_toFinset.2 hx) hinv1 hp)
          (rcnPass_usable (fun x hx => List.mem_toFinset.2 hx) hinv2 hp) hgo

theorem rcnGo_error {b : Finset Lit} {l : List Clause} :
    ∀ {fuel : Nat} {heads : Finset Lit} {usable : Finset Clause},
      (∀ h ∈ heads, Reach b l.toFinset h) →
      rcnGo b l fuel heads usable = some (.error ()) →
      ∃ c ∈ l.toFinset, headOpt c = none ∧
        ∀ x ∈ body c, x ∉ b → Reach b l.toFinset x := by
  intro fuel
  induction fuel with
  | zero => intro heads usable _ hgo; exact absurd hgo (by simp [rcnGo])
  | succ n ih =>
    intro heads usable hinv1 hgo
    simp only [rcnGo] at hgo
    split at hgo
    · rename_i e hp
      cases e
      exact rcnPass_error (fun x hx => List.mem_toFinset.2 hx) hinv1 hp
    · rename_i h1 u1 hp
      by_cases he : h1 = heads
      · rw [if_pos he] at hgo
        exact absurd hgo (by simp)
      · rw [if_neg he] at hgo
        exact ih (rcnPass_sound (fun x hx => List.mem_toFinset.2 hx) hinv1 hp) hgo

theorem rcnuclL_ok_spec {b : Finset Lit} {l : List Clause} {H : Finset Lit}
    {U : Finset Clause} (h : rcnuclL b l = .ok (H, U)) :
    (∀ x, x ∈ H ↔ Reach b l.toFinset x) ∧
    (∀ c ∈ l.toFinset, body c ⊆ b ∪ H → ∃ hd, headOpt c = some hd ∧ hd ∈ H) ∧
    U = minimal ((l.toFinset).filter (fun c => body c ⊆ b ∪ H)) ∅ := by
  have hg := rcnGo_eq_some_rcnuclL b l
  rw [h] at hg
  exact rcnGo_ok (by simp) (by simp) hg

theorem rcnuclL_error_spec {b : Finset Lit} {l : List Clause}
    (h : rcnuclL b l = .error ()) :
    ∃ c ∈ l.toFinset, headOpt c = none ∧
      ∀ x ∈ body c, x ∉ b → Reach b l.toFinset x := by
  have hg := rcnGo_eq_some_rcnuclL b l
  rw [h] at hg
  exact rcnGo_error (by simp) hg

theorem rcnuclL_congr {b : Finset Lit} {l1 l2 : List Clause}
    (hf : l1.toFinset = l2.toFinset) : rcnuclL b l1 = rcnuclL b l2 := by
  cases h1 : rcnuclL b l1 with
  | ok r1 =>
    obtain ⟨H1, U1⟩ := r1
    cases h2 : rcnuclL b l2 with
    | ok r2 =>
      obtain ⟨H2, U2⟩ := r2
      obtain ⟨hc1, hcl1, hu1⟩ := rcnuclL_ok_spec h1
      obtain ⟨hc2, hcl2, hu2⟩ := rcnuclL_ok_spec h2
      have hH : H1 = H2 := by
        ext x
        rw [hc1 x, hc2 x, hf]
      subst hH
      have hU : U1 = U2 := by rw [hu1, hu2, hf]
      rw [hU]
    | error e =>
      cases e
      obtain ⟨c, hc, hnone, hbody⟩ := rcnuclL_error_spec h2
      obtain ⟨hc1, hcl1, _⟩ := rcnuclL_ok_spec h1
      have hcb : body c ⊆ b ∪ H1 := by
        intro x hx
        by_cases hxb : x ∈ b
        · exact Finset.mem_union.2 (Or.inl hxb)
        · refine Finset.mem_union.2 (Or.inr ((hc1 x).2 ?_))
          rw [hf]
          exact hbody x hx hxb
      obtain ⟨hd, hh, _⟩ := hcl1 c (by rw [hf]; exact hc) hcb
      rw [hnone] at hh
      exact Option.noConfusion hh
  | error e =>
    cases e
    cases h2 : rcnuclL b l2 with
    | ok r2 =>
      obtain ⟨H2, U2⟩ := r2
      obtain ⟨c, hc, hnone, hbody⟩ := rcnuclL_error_spec h1
      obtain ⟨hc2, hcl2, _⟩ := rcnuclL_ok_spec h2
      have hcb : body c ⊆ b ∪ H2 := by
        intro x hx
        by_cases hxb : x ∈ b
        · exact Finset.mem_union.2 (Or.inl hxb)
        · refine Finset.mem_union.2 (Or.inr ((hc2 x).2 ?_))
          rw [← hf]
          exact hbody x hx hxb
      obtain ⟨hd, hh, _⟩ := hcl2 c (by rw [← hf]; exact hc) hcb
      rw [hnone] at hh
      exact Option.noConfusion hh
    | error e2 =>
      cases e2
      rfl

theorem rcnuclL_isOk_of_headed {b : Finset Lit} {l : List Clause}
    (hhd : ∀ c ∈ l.toFinset, (c.filter (fun x => x.neg = 0)).Nonempty) :
    ∃ r, rcnuclL b l = .ok r := by
  cases h : rcnuclL b l with
  | ok r => exact ⟨r, rfl⟩
  | error e =>
    cases e
    obtain ⟨c, hc, hnone, _⟩ := rcnuclL_error_spec h
    rw [headOpt_eq_none_iff] at hnone
    obtain ⟨x, hx⟩ := hhd c hc
    rw [hnone] at hx
    exact absurd hx (by simp)

theorem enumClauses_toFinset (s : Finset Clause) : (enumClauses s).toFinset = s := by
  ext c
  rw [List.mem_toFinset, mem_enumClauses]

instance {ε α : Type} [DecidableEq ε] [DecidableEq α] : DecidableEq (Except ε α) :=
  fun a b =>
    match a, b with
    | .ok x, .ok y => decidable_of_iff (x = y) (by simp)
    | .error x, .error y => decidable_of_iff (x = y) (by simp)
    | .ok _, .error _ => isFalse (by simp)
    | .error _, .ok _ => isFalse (by simp)

theorem body_mono {d c : Clause} (h : d ⊆ c) : body d ⊆ body c :=
  Finset.image_subset_image (Finset.filter_subset_filter _ h)

theorem minimal_fired (f : Formula) (s : Finset Lit) :
    minimal (f.filter (fun c => body c ⊆ s)) ∅ =
      f.filter (fun c => body c ⊆ s ∧ ¬ ∃ d ∈ f, d ⊂ c) := by
  ext c
  constructor
  · intro hc
    rw [minimal, Finset.mem_filter] at hc
    obtain ⟨hcS, hmin⟩ := hc
    rw [Finset.mem_filter] at hcS
    rw [Finset.mem_filter]
    refine ⟨hcS.1, hcS.2, ?_⟩
    rintro ⟨d, hdf, hdc⟩
    refine hmin ⟨d, ?_, hdc⟩
    rw [Finset.union_empty, Finset.mem_filter]
    exact ⟨hdf, subset_trans (body_mono hdc.subset) hcS.2⟩
  · intro hc
    rw [Finset.mem_filter] at hc
    obtain ⟨hcf, hcb, hmin⟩ := hc
    rw [minimal, Finset.mem_filter]
    refine ⟨Finset.mem_filter.2 ⟨hcf, hcb⟩, ?_⟩
    rintro ⟨d, hdm, hdc⟩
    rw [Finset.union_empty, Finset.mem_filter] at hdm
    exact hmin ⟨d, hdm.1, hdc⟩

/-- Every clause has exactly one positive literal (a definite Horn formula,
the representation the algorithm's synthesized clauses use). -/
def definite (f : Formula) : Prop := ∀ c ∈ f, (c.filter (fun l => l.neg = 0)).card = 1

instance (f : Formula) : Decidable (definite f) :=
  inferInstanceAs (Decidable (∀ c ∈ f, _ = 1))

/-- Every clause has at most one positive literal: the Horn discipline of
the specification's data model, which also admits purely negative
clauses. -/
def horn (f : Formula) : Prop := ∀ c ∈ f, (c.filter (fun l => l.neg = 0)).card ≤ 1

instance (f : Formula) : Decidable (horn f) :=
  inferInstanceAs (Decidable (∀ c ∈ f, _ ≤ 1))

theorem filter_pos_eq_singleton_of_head {c : Clause} {hd : Lit}
    (hh : headOpt c = some hd)
    (hcard : (c.filter (fun l => l.neg = 0)).card ≤ 1) :
    c.filter (fun l => l.neg = 0) = {hd} := by
  obtain ⟨hmem, hpos⟩ := headOpt_spec hh
  have hm : hd ∈ c.filter (fun l => l.neg = 0) := Finset.mem_filter.2 ⟨hmem, hpos⟩
  have h1 : 1 ≤ (c.filter (fun l => l.neg = 0)).card := Finset.card_pos.2 ⟨hd, hm⟩
  obtain ⟨x, hx⟩ := Finset.card_eq_one.1 (le_antisymm hcard h1)
  rw [hx] at hm
  rw [Finset.mem_singleton] at hm
  rw [hx, hm]

theorem headOpt_congr_subset {d c : Clause}
    (hdef_d : (d.filter (fun l => l.neg = 0)).card = 1)
    (hdef_c : (c.filter (fun l => l.neg = 0)).card = 1) (hdc : d ⊆ c) :
    headOpt d = headOpt c := by
  have hsub : d.filter (fun l => l.neg = 0) ⊆ c.filter (fun l => l.neg = 0) :=
    Finset.filter_subset_filter _ hdc
  have heq : d.filter (fun l => l.neg = 0) = c.filter (fun l => l.neg = 0) :=
    Finset.eq_of_subset_of_card_le hsub (by omega)
  unfold headOpt
  rw [heq]

theorem reach_ucl {f : Formula}
    (hhorn : ∀ c ∈ f, (c.filter (fun l => l.neg = 0)).card ≤ 1)
    {B H : Finset Lit} {U : Finset Clause}
    (hU : U = f.filter (fun c => body c ⊆ B ∪ H ∧ ¬ ∃ d ∈ f, d ⊂ c))
    (hH : ∀ x, x ∈ H ↔ Reach B f x)
    (hclosed : ∀ c ∈ f, body c ⊆ B ∪ H → ∃ hd, headOpt c = some hd ∧ hd ∈ H) :
    ∀ x, Reach B f x ↔ Reach B U x := by
  intro x
  constructor
  · intro hr
    induction hr with
    | intro c hc hd hh hb ih =>
      have hne : (f.filter (fun d => d ⊆ c)).Nonempty :=
        ⟨c, Finset.mem_filter.2 ⟨hc, subset_rfl⟩⟩
      obtain ⟨m, hm, hmin⟩ := Finset.exists_minimal _ hne
      rw [Finset.mem_filter] at hm
      obtain ⟨hmf, hmc⟩ := hm
      have hnostrict : ¬ ∃ d ∈ f, d ⊂ m := by
        rintro ⟨d, hdf, hdm⟩
        exact hmin d (Finset.mem_filter.2 ⟨hdf, subset_trans hdm.subset hmc⟩) hdm
      have hbodyc : body c ⊆ B ∪ H := by
        intro y hy
        by_cases hyb : y ∈ B
        · exact Finset.mem_union.2 (Or.inl hyb)
        · exact Finset.mem_union.2 (Or.inr ((hH y).2 (hb y hy hyb)))
      have hbodym : body m ⊆ B ∪ H := subset_trans (body_mono hmc) hbodyc
      have hmU : m ∈ U := by
        rw [hU]
        exact Finset.mem_filter.2 ⟨hmf, hbodym, hnostrict⟩
      have hhm : headOpt m = some hd := by
        obtain ⟨hdm, hhm', _⟩ := hclosed m hmf hbodym
        have hfc : c.filter (fun l => l.neg = 0) = {hd} :=
          filter_pos_eq_singleton_of_head hh (hhorn c hc)
        have hfm : m.filter (fun l => l.neg = 0) = {hdm} :=
          filter_pos_eq_singleton_of_head hhm' (hhorn m hmf)
        have hsub : m.filter (fun l => l.neg = 0) ⊆ c.filter (fun l => l.neg = 0) :=
          Finset.filter_subset_filter _ hmc
        rw [hfm, hfc] at hsub
        rw [← Finset.mem_singleton.1 (hsub (Finset.mem_singleton_self hdm))]
        exact hhm'
      refine Reach.intro m hmU hd hhm ?_
      intro y hy hyB
      exact ih y (body_mono hmc hy) hyB
  · intro hr
    have hUf : U ⊆ f := by
      rw [hU]
      exact Finset.filter_subset _ _
    exact Reach.mono_formula hUf hr

/-- Claim C3: for a Horn formula `F` (every clause carries at most one
positive literal, as the specification's data model prescribes; purely
negative clauses are allowed) and a body `B` of a clause of `F`, the heads
component of `rcnucl(B, UCL(B, F))` equals the heads component of
`rcnucl(B, F)`, where `UCL(B, F)` is the second component returned by
`rcnucl(B, F)`. -/
theorem rcnucl_heads_eq_on_ucl (f : Formula) (hhorn : horn f)
    (B : Finset Lit) (_hB : B ∈ bodies f)
    (H H2 : Finset Lit) (U U2 : Finset Clause)
    (h1 : rcnucl B f = .ok (H, U)) (h2 : rcnucl B U = .ok (H2, U2)) :
    H2 = H := by
  obtain ⟨hc1, hcl1, hu1⟩ := rcnuclL_ok_spec h1
  obtain ⟨hc2, _, _⟩ := rcnuclL_ok_spec h2
  rw [enumClauses_toFinset] at hc1 hu1 hcl1
  rw [enumClauses_toFinset] at hc2
  rw [minimal_fired] at hu1
  have hiff := reach_ucl hhorn hu1 hc1 hcl1
  ext x
  rw [hc2 x, hc1 x]
  exact (hiff x).symm

theorem rcnucl_heads_eq_on_ucl_witness :
    horn {{⟨1,0⟩,⟨0,1⟩}, {⟨1,2⟩,⟨1,3⟩}} ∧
    ({⟨0,0⟩} : Finset Lit) ∈ bodies {{⟨1,0⟩,⟨0,1⟩}, {⟨1,2⟩,⟨1,3⟩}} ∧
    rcnucl {⟨0,0⟩} {{⟨1,0⟩,⟨0,1⟩}, {⟨1,2⟩,⟨1,3⟩}} =
      .ok ({⟨0,1⟩}, {{⟨1,0⟩,⟨0,1⟩}}) ∧
    rcnucl {⟨0,0⟩} {{⟨1,0⟩,⟨0,1⟩}} = .ok ({⟨0,1⟩}, {{⟨1,0⟩,⟨0,1⟩}}) ∧
    ({⟨0,1⟩} : Finset Lit) = {⟨0,1⟩} :=
  ⟨by decide, by decide, by decide, by decide,
    rcnucl_heads_eq_on_ucl {{⟨1,0⟩,⟨0,1⟩}, {⟨1,2⟩,⟨1,3⟩}} (by decide) {⟨0,0⟩}
      (by decide) {⟨0,1⟩} {⟨0,1⟩} {{⟨1,0⟩,⟨0,1⟩}} {{⟨1,0⟩,⟨0,1⟩}}
      (by decide) (by decide)⟩

/-- Claim C4: `rcnucl` is monotone in its first argument: if `B ⊆ B'` then
the heads of `rcnucl(B, F)` are a subset of the heads of `rcnucl(B', F)`
and the usable-clause set of `rcnucl(B, F)` is a subset of the one of
`rcnucl(B', F)`. -/
theorem rcnucl_monotone (f : Formula) (B Bp : Finset Lit) (hBB : B ⊆ Bp)
    (H Hp : Finset Lit) (U Up : Finset Clause)
    (h1 : rcnucl B f = .ok (H, U)) (h2 : rcnucl Bp f = .ok (Hp, Up)) :
    H ⊆ Hp ∧ U ⊆ Up := by
  obtain ⟨hc1, _, hu1⟩ := rcnuclL_ok_spec h1
  obtain ⟨hc2, _, hu2⟩ := rcnuclL_ok_spec h2
  rw [enumClauses_toFinset] at hc1 hu1 hc2 hu2
  have hH : H ⊆ Hp := by
    intro x hx
    exact (hc2 x).2 (Reach.mono_base hBB ((hc1 x).1 hx))
  refine ⟨hH, ?_⟩
  rw [hu1, hu2, minimal_fired, minimal_fired]
  intro c hc
  rw [Finset.mem_filter] at hc ⊢
  obtain ⟨hcf, hcb, hmin⟩ := hc
  refine ⟨hcf, ?_, hmin⟩
  intro x hx
  rcases Finset.mem_union.1 (hcb hx) with h | h
  · exact Finset.mem_union.2 (Or.inl (hBB h))
  · exact Finset.mem_union.2 (Or.inr (hH h))

theorem rcnucl_monotone_witness :
    ({⟨0,0⟩} : Finset Lit) ⊆ {⟨0,0⟩,⟨0,2⟩} ∧
    rcnucl {⟨0,0⟩} {{⟨1,0⟩,⟨0,1⟩}, {⟨1,2⟩,⟨0,3⟩}} = .ok ({⟨0,1⟩}, {{⟨1,0⟩,⟨0,1⟩}}) ∧
    rcnucl {⟨0,0⟩,⟨0,2⟩} {{⟨1,0⟩,⟨0,1⟩}, {⟨1,2⟩,⟨0,3⟩}} =
      .ok ({⟨0,1⟩,⟨0,3⟩}, {{⟨1,0⟩,⟨0,1⟩}, {⟨1,2⟩,⟨0,3⟩}}) ∧
    (({⟨0,1⟩} : Finset Lit) ⊆ {⟨0,1⟩,⟨0,3⟩} ∧
      ({{⟨1,0⟩,⟨0,1⟩}} : Finset Clause) ⊆ {{⟨1,0⟩,⟨0,1⟩}, {⟨1,2⟩,⟨0,3⟩}}) :=
  ⟨by decide, by decide, by decide,
    rcnucl_monotone {{⟨1,0⟩,⟨0,1⟩}, {⟨1,2⟩,⟨0,3⟩}} {⟨0,0⟩} {⟨0,0⟩,⟨0,2⟩} (by decide)
      {⟨0,1⟩} {⟨0,1⟩,⟨0,3⟩} {{⟨1,0⟩,⟨0,1⟩}} {{⟨1,0⟩,⟨0,1⟩}, {⟨1,2⟩,⟨0,3⟩}}
      (by decide) (by decide)⟩

/-- Claim C7: `rcnucl(B, F)` returns the same pair for every enumeration
order of the clauses of `F`; on success the heads component is exactly the
least forward-chaining fixpoint `Reach B F` and the usable component is
`minimal({c ∈ F : body(c) ⊆ B ∪ heads})`, independently of the order in
which clauses are examined inside each pass. -/
theorem rcnucl_deterministic (b : Finset Lit) (f : Formula) (l : List Clause)
    (hl : l.toFinset = f) :
    rcnuclL b l = rcnucl b f ∧
    (∀ H U, rcnucl b f = .ok (H, U) →
      (∀ x, x ∈ H ↔ Reach b f x) ∧
      U = minimal (f.filter (fun c => body c ⊆ b ∪ H)) ∅) := by
  constructor
  · exact rcnuclL_congr (by rw [enumClauses_toFinset]; exact hl)
  · intro H U h
    obtain ⟨h1, _, h3⟩ := rcnuclL_ok_spec h
    rw [enumClauses_toFinset] at h1 h3
    exact ⟨h1, h3⟩

theorem rcnucl_deterministic_witness :
    ([{⟨1,2⟩,⟨0,3⟩}, {⟨1,0⟩,⟨0,1⟩}] : List Clause).toFinset =
      {{⟨1,0⟩,⟨0,1⟩}, {⟨1,2⟩,⟨0,3⟩}} ∧
    rcnuclL {⟨0,0⟩} [{⟨1,2⟩,⟨0,3⟩}, {⟨1,0⟩,⟨0,1⟩}] =
      rcnucl {⟨0,0⟩} {{⟨1,0⟩,⟨0,1⟩}, {⟨1,2⟩,⟨0,3⟩}} :=
  ⟨by decide,
    (rcnucl_deterministic {⟨0,0⟩} {{⟨1,0⟩,⟨0,1⟩}, {⟨1,2⟩,⟨0,3⟩}}
      [{⟨1,2⟩,⟨0,3⟩}, {⟨1,0⟩,⟨0,1⟩}] (by decide)).1⟩

/-- Two literals are complementary exactly when the scan condition of
`resolve` accepts them: `x == '-' + y or '-' + x == y`. -/
def complementary (x y : Lit) : Prop := x = y.negate ∨ x.negate = y

instance (x y : Lit) : Decidable (complementary x y) :=
  inferInstanceAs (Decidable (_ ∨ _))

theorem compl_right_unique {x y y' : Lit} (hy : y.neg ≤ 1) (hy' : y'.neg ≤ 1)
    (h1 : complementary x y) (h2 : complementary x y') : y = y' := by
  rcases h1 with h1 | h1 <;> rcases h2 with h2 | h2
  · exact Lit.negate_injective (h1.symm.trans h2)
  · exfalso
    rw [← h2, h1] at hy'
    simp [Lit.negate] at hy'
  · exfalso
    rw [← h1, h2] at hy
    simp [Lit.negate] at hy
  · exact h1.symm.trans h2

theorem compl_left_unique {x x' y : Lit} (hx : x.neg ≤ 1) (hx' : x'.neg ≤ 1)
    (h1 : complementary x y) (h2 : complementary x' y) : x = x' := by
  rcases h1 with h1 | h1 <;> rcases h2 with h2 | h2
  · exact h1.trans h2.symm
  · exfalso
    rw [h1, ← h2] at hx
    simp [Lit.negate] at hx
  · exfalso
    rw [h2, ← h1] at hx'
    simp [Lit.negate] at hx'
  · exact Lit.negate_injective (h1.trans h2.symm)

theorem resolveFind_some {lb : List Lit} {x y : Lit} :
    ∀ {la : List Lit}, resolveFind la lb = some (x, y) →
      x ∈ la ∧ y ∈ lb ∧ complementary x y := by
  intro la
  induction la with
  | nil => intro h; exact absurd h (by simp [resolveFind])
  | cons z zs ih =>
    intro h
    simp only [resolveFind] at h
    cases hf : lb.find? (fun w => decide (z = w.negate ∨ z.negate = w)) with
    | some w =>
      rw [hf] at h
      simp only [Option.some.injEq, Prod.mk.injEq] at h
      obtain ⟨rfl, rfl⟩ := h
      refine ⟨by simp, List.mem_of_find?_eq_some hf, ?_⟩
      have := List.find?_some hf
      simpa [complementary] using this
    | none =>
      rw [hf] at h
      obtain ⟨hx, hy, hc⟩ := ih h
      exact ⟨by simp [hx], hy, hc⟩

theorem resolveFind_none {lb : List Lit} :
    ∀ {la : List Lit}, resolveFind la lb = none →
      ∀ x ∈ la, ∀ y ∈ lb, ¬ complementary x y := by
  intro la
  induction la with
  | nil => intro _ x hx; exact absurd hx (by simp)
  | cons z zs ih =>
    intro h
    simp only [resolveFind] at h
    cases hf : lb.find? (fun w => decide (z = w.negate ∨ z.negate = w)) with
    | some w => rw [hf] at h; exact absurd h (by simp)
    | none =>
      rw [hf] at h
      intro x hx y hy hc
      rcases List.mem_cons.1 hx with rfl | hmem
      · have := List.find?_eq_none.1 hf y hy
        simp only [decide_eq_true_eq] at this
        exact this hc
      · exact ih h x hmem y hy hc

theorem resolveFind_isSome {la lb : List Lit} {x y : Lit}
    (hx : x ∈ la) (hy : y ∈ lb) (hc : complementary x y) :
    ∃ p, resolveFind la lb = some p := by
  cases h : resolveFind la lb with
  | some p => exact ⟨p, rfl⟩
  | none => exact absurd hc (resolveFind_none h x hx y hy)

theorem enumLits_toFinset (c : Clause) : (enumLits c).toFinset = c := by
  ext x
  rw [List.mem_toFinset, mem_enumLits]

theorem resolveWith_eq_of_find {a b : Clause} {la lb : List Lit} {x y : Lit}
    (h : resolveFind la lb = some (x, y)) :
    resolveWith a b la lb =
      if tautology (a.erase x ∪ b.erase y) then ∅ else {a.erase x ∪ b.erase y} := by
  unfold resolveWith
  rw [h]

theorem resolveWith_eq_of_none {a b : Clause} {la lb : List Lit}
    (h : resolveFind la lb = none) : resolveWith a b la lb = ∅ := by
  unfold resolveWith
  rw [h]

theorem resolvent_taut_of_two_pairs {a b : Clause}
    (hpa : ∀ l ∈ a, l.neg ≤ 1) (hpb : ∀ l ∈ b, l.neg ≤ 1)
    {x1 y1 x2 y2 : Lit} (hx1 : x1 ∈ a) (hy1 : y1 ∈ b) (hc1 : complementary x1 y1)
    (hx2 : x2 ∈ a) (hy2 : y2 ∈ b) (hc2 : complementary x2 y2)
    (hne : (x1, y1) ≠ (x2, y2)) :
    ∀ x ∈ a, ∀ y ∈ b, complementary x y → tautology (a.erase x ∪ b.erase y) := by
  intro x hx y hy hc
  have key : ∀ x0 ∈ a, ∀ y0 ∈ b, complementary x0 y0 → (x0, y0) ≠ (x, y) →
      x0 ≠ x ∧ y0 ≠ y := by
    intro x0 hx0 y0 hy0 hc0 hne0
    constructor
    · rintro rfl
      exact hne0 (by rw [compl_right_unique (hpb _ hy0) (hpb _ hy) hc0 hc])
    · rintro rfl
      exact hne0 (by rw [compl_left_unique (hpa _ hx0) (hpa _ hx) hc0 hc])
  have hdiff : ∃ xd ∈ a, ∃ yd ∈ b, complementary xd yd ∧ xd ≠ x ∧ yd ≠ y := by
    by_cases h1 : (x1, y1) = (x, y)
    · have hne2 : (x2, y2) ≠ (x, y) := fun h => hne (h1.trans h.symm)
      obtain ⟨hxx, hyy⟩ := key x2 hx2 y2 hy2 hc2 hne2
      exact ⟨x2, hx2, y2, hy2, hc2, hxx, hyy⟩
    · obtain ⟨hxx, hyy⟩ := key x1 hx1 y1 hy1 hc1 h1
      exact ⟨x1, hx1, y1, hy1, hc1, hxx, hyy⟩
  obtain ⟨xd, hxd, yd, hyd, hcd, hxx, hyy⟩ := hdiff
  have hxr : xd ∈ a.erase x ∪ b.erase y :=
    Finset.mem_union.2 (Or.inl (Finset.mem_erase.2 ⟨hxx, hxd⟩))
  have hyr : yd ∈ a.erase x ∪ b.erase y :=
    Finset.mem_union.2 (Or.inr (Finset.mem_erase.2 ⟨hyy, hyd⟩))
  rcases hcd with h | h
  · exact ⟨yd, hyr, by rw [← h]; exact hxr⟩
  · exact ⟨xd, hxr, by rw [h]; exact hyr⟩

/-- Claim C6: for two Horn clauses `a`, `b` over proper literals (at most
one leading dash, at most one positive literal per clause), if two distinct
complementary literal pairs exist between `a` and `b` then every resolvent
is a tautology; consequently the value of `resolve(a, b)` does not depend
on the order in which the literals of `a` and `b` are scanned. -/
theorem resolve_deterministic (a b : Clause)
    (hpa : ∀ l ∈ a, l.neg ≤ 1) (hpb : ∀ l ∈ b, l.neg ≤ 1)
    (_hha : (a.filter (fun l => l.neg = 0)).card ≤ 1)
    (_hhb : (b.filter (fun l => l.neg = 0)).card ≤ 1) :
    (∀ x1 ∈ a, ∀ y1 ∈ b, ∀ x2 ∈ a, ∀ y2 ∈ b,
      complementary x1 y1 → complementary x2 y2 → (x1, y1) ≠ (x2, y2) →
      ∀ x ∈ a, ∀ y ∈ b, complementary x y → tautology (a.erase x ∪ b.erase y)) ∧
    (∀ la lb : List Lit, la.toFinset = a → lb.toFinset = b →
      resolveWith a b la lb = resolve a b) := by
  constructor
  · intro x1 hx1 y1 hy1 x2 hx2 y2 hy2 hc1 hc2 hne
    exact resolvent_taut_of_two_pairs hpa hpb hx1 hy1 hc1 hx2 hy2 hc2 hne
  intro la lb hla hlb
  by_cases hex : ∃ x ∈ a, ∃ y ∈ b, complementary x y
  · obtain ⟨x0, hx0, y0, hy0, hc0⟩ := hex
    by_cases huniq : ∀ x ∈ a, ∀ y ∈ b, complementary x y → (x, y) = (x0, y0)
    · have hfind : ∀ lc ld : List Lit, lc.toFinset = a → ld.toFinset = b →
          resolveFind lc ld = some (x0, y0) := by
        intro lc ld hlc hld
        obtain ⟨p, hp⟩ := resolveFind_isSome
          (show x0 ∈ lc by rw [← List.mem_toFinset, hlc]; exact hx0)
          (show y0 ∈ ld by rw [← List.mem_toFinset, hld]; exact hy0) hc0
        obtain ⟨px, py⟩ := p
        obtain ⟨hpx, hpy, hpc⟩ := resolveFind_some hp
        have := huniq px (by rw [← hlc]; exact List.mem_toFinset.2 hpx)
          py (by rw [← hld]; exact List.mem_toFinset.2 hpy) hpc
        rw [hp, this]
      rw [resolve, resolveWith_eq_of_find (hfind la lb hla hlb),
        resolveWith_eq_of_find (hfind (enumLits a) (enumLits b)
          (enumLits_toFinset a) (enumLits_toFinset b))]
    · push_neg at huniq
      obtain ⟨x1, hx1, y1, hy1, hc1, hne⟩ := huniq
      have htaut := resolvent_taut_of_two_pairs hpa hpb hx1 hy1 hc1 hx0 hy0 hc0 hne
      have hval : ∀ lc ld : List Lit, lc.toFinset = a → ld.toFinset = b →
          resolveWith a b lc ld = ∅ := by
        intro lc ld hlc hld
        obtain ⟨p, hp⟩ := resolveFind_isSome
          (show x0 ∈ lc by rw [← List.mem_toFinset, hlc]; exact hx0)
          (show y0 ∈ ld by rw [← List.mem_toFinset, hld]; exact hy0) hc0
        obtain ⟨px, py⟩ := p
        obtain ⟨hpx, hpy, hpc⟩ := resolveFind_some hp
        rw [resolveWith_eq_of_find hp,
          if_pos (htaut px (by rw [← hlc]; exact List.mem_toFinset.2 hpx)
            py (by rw [← hld]; exact List.mem_toFinset.2 hpy) hpc)]
      rw [resolve, hval la lb hla hlb,
        hval (enumLits a) (enumLits b) (enumLits_toFinset a) (enumLits_toFinset b)]
  · have hnone : ∀ lc ld : List Lit, lc.toFinset = a → ld.toFinset = b →
        resolveFind lc ld = none := by
      intro lc ld hlc hld
      cases h : resolveFind lc ld with
      | none => rfl
      | some p =>
        obtain ⟨px, py⟩ := p
        obtain ⟨hpx, hpy, hpc⟩ := resolveFind_some h
        exact absurd ⟨px, by rw [← hlc]; exact List.mem_toFinset.2 hpx,
          py, by rw [← hld]; exact List.mem_toFinset.2 hpy, hpc⟩ hex
    rw [resolve, resolveWith_eq_of_none (hnone la lb hla hlb),
      resolveWith_eq_of_none (hnone (enumLits a) (enumLits b)
        (enumLits_toFinset a) (enumLits_toFinset b))]

theorem resolve_deterministic_witness :
    (∀ l ∈ ({⟨1,0⟩,⟨0,1⟩} : Clause), l.neg ≤ 1) ∧
    (∀ l ∈ ({⟨1,1⟩,⟨0,2⟩} : Clause), l.neg ≤ 1) ∧
    ((({⟨1,0⟩,⟨0,1⟩} : Clause).filter (fun l => l.neg = 0)).card ≤ 1 ∧
      (({⟨1,1⟩,⟨0,2⟩} : Clause).filter (fun l => l.neg = 0)).card ≤ 1) ∧
    ((∀ x1 ∈ ({⟨1,0⟩,⟨0,1⟩} : Clause), ∀ y1 ∈ ({⟨1,1⟩,⟨0,2⟩} : Clause),
      ∀ x2 ∈ ({⟨1,0⟩,⟨0,1⟩} : Clause), ∀ y2 ∈ ({⟨1,1⟩,⟨0,2⟩} : Clause),
      complementary x1 y1 → complementary x2 y2 → (x1, y1) ≠ (x2, y2) →
      ∀ x ∈ ({⟨1,0⟩,⟨0,1⟩} : Clause), ∀ y ∈ ({⟨1,1⟩,⟨0,2⟩} : Clause),
        complementary x y →
        tautology (({⟨1,0⟩,⟨0,1⟩} : Clause).erase x ∪ ({⟨1,1⟩,⟨0,2⟩} : Clause).erase y)) ∧
    (∀ la lb : List Lit, la.toFinset = {⟨1,0⟩,⟨0,1⟩} → lb.toFinset = {⟨1,1⟩,⟨0,2⟩} →
      resolveWith {⟨1,0⟩,⟨0,1⟩} {⟨1,1⟩,⟨0,2⟩} la lb =
        resolve {⟨1,0⟩,⟨0,1⟩} {⟨1,1⟩,⟨0,2⟩})) :=
  ⟨by decide, by decide, ⟨by decide, by decide⟩,
    resolve_deterministic {⟨1,0⟩,⟨0,1⟩} {⟨1,1⟩,⟨0,2⟩}
      (by decide) (by decide) (by decide) (by decide)⟩

/-! ### `hclose`: head-restricted closure -/

/-- The comprehension `{n for n in resolve(c, u) if head(n) == head(c) and
not tautology(n)}`, scanning the (at most one) resolvents in order. -/
def hcNews (c : Clause) : List Clause → Except Unit (Finset Clause)
  | [] => .ok ∅
  | n :: rest =>
    match headE n with
    | .error e => .error e
    | .ok hn =>
      match headE c with
      | .error e => .error e
      | .ok hc =>
        match hcNews c rest with
        | .error e => .error e
        | .ok s => .ok (if hn = hc ∧ ¬ tautology n then insert n s else s)

/-- The `for u in usable` loop of one `hclose` round, for a fixed clause
`c` of `toresolve`; `acc` is the closure being extended. -/
def hcInner (c : Clause) : Finset Clause → List Clause → Except Unit (Finset Clause)
  | acc, [] => .ok acc
  | acc, u :: rest =>
    match hcNews c (enumClauses (resolve c u)) with
    | .error e => .error e
    | .ok ns => hcInner c (acc ∪ ns) rest

/-- The `for c in toresolve` loop of one `hclose` round. -/
def hcOuter (usableL : List Clause) : Finset Clause → List Clause → Except Unit (Finset Clause)
  | acc, [] => .ok acc
  | acc, c :: rest =>
    match hcInner c acc usableL with
    | .error e => .error e
    | .ok acc2 => hcOuter usableL acc2 rest

/-- The `while toresolve` loop of `hclose`, on fuel. -/
def hcloseGo (usableL : List Clause) : Nat → Finset Clause → Finset Clause →
    Option (Except Unit (Finset Clause))
  | 0, _, _ => none
  | fuel + 1, closure, resolved =>
    if closure \ resolved = ∅ then some (.ok closure)
    else
      match hcOuter usableL closure (enumClauses (closure \ resolved)) with
      | .error e => some (.error e)
      | .ok closure2 =>
        hcloseGo usableL fuel (minimal closure2 ∅) (resolved ∪ (closure \ resolved))

/-- The seeding `{c for c in usable if head(c) in heads}`. -/
def hcSeed (heads : Finset Lit) : List Clause → Except Unit (Finset Clause)
  | [] => .ok ∅
  | c :: rest =>
    match headE c with
    | .error e => .error e
    | .ok hc =>
      match hcSeed heads rest with
      | .error e => .error e
      | .ok s => .ok (if hc ∈ heads then insert c s else s)

/-- All literals occurring in the initial closure or in `usable`: every
clause a round of `hclose` can produce is built from them. -/
def hcLitUniv (closure usable : Finset Clause) : Finset Lit := (usable ∪ closure).sup id

/-- Fuel sufficient for the `hclose` loop. -/
def hcFuel (closure usable : Finset Clause) : Nat :=
  ((hcLitUniv closure usable).powerset).card + 1

theorem resolve_subset {c u n : Clause} (h : n ∈ resolve c u) : n ⊆ c ∪ u := by
  rw [resolve] at h
  cases hf : resolveFind (enumLits c) (enumLits u) with
  | some p =>
    obtain ⟨x, y⟩ := p
    rw [resolveWith_eq_of_find hf] at h
    by_cases ht : tautology (c.erase x ∪ u.erase y)
    · rw [if_pos ht] at h
      exact absurd h (by simp)
    · rw [if_neg ht] at h
      rw [Finset.mem_singleton] at h
      subst h
      exact Finset.union_subset_union (Finset.erase_subset _ _) (Finset.erase_subset _ _)
  | none =>
    rw [resolveWith_eq_of_none hf] at h
    exact absurd h (by simp)

theorem hcNews_subset {c : Clause} {s : Finset Clause} :
    ∀ {ln : List Clause}, hcNews c ln = .ok s → ∀ n ∈ s, n ∈ ln.toFinset := by
  intro ln
  induction ln generalizing s with
  | nil =>
    intro h n hn
    simp only [hcNews, Except.ok.injEq] at h
    subst h
    exact absurd hn (by simp)
  | cons m rest ih =>
    intro h n hn
    simp only [hcNews] at h
    cases hm : headE m with
    | error e => rw [hm] at h; exact absurd h (by simp)
    | ok hmv =>
      rw [hm] at h
      cases hc : headE c with
      | error e => rw [hc] at h; exact absurd h (by simp)
      | ok hcv =>
        rw [hc] at h
        cases hr : hcNews c rest with
        | error e => rw [hr] at h; exact absurd h (by simp)
        | ok s0 =>
          rw [hr] at h
          have h' : (Except.ok
              (if hmv = hcv ∧ ¬ tautology m then insert m s0 else s0) :
                Except Unit (Finset Clause)) = .ok s := h
          have hs : (if hmv = hcv ∧ ¬ tautology m then insert m s0 else s0) = s := by
            injection h'
          subst hs
          by_cases hcond : hmv = hcv ∧ ¬ tautology m
          · rw [if_pos hcond] at hn
            rcases Finset.mem_insert.1 hn with rfl | hmem
            · simp
            · simp [ih hr n hmem]
          · rw [if_neg hcond] at hn
            simp [ih hr n hn]

theorem headE_ok_iff {c : Clause} {h : Lit} : headE c = .ok h ↔ headOpt c = some h := by
  unfold headE
  cases hv : headOpt c <;> simp

theorem hcNews_spec {c : Clause} {s : Finset Clause} :
    ∀ {ln : List Clause}, hcNews c ln = .ok s →
      ∀ n ∈ s, (∃ h, headOpt n = some h ∧ headOpt c = some h) ∧ ¬ tautology n := by
  intro ln
  induction ln generalizing s with
  | nil =>
    intro h n hn
    simp only [hcNews, Except.ok.injEq] at h
    subst h
    exact absurd hn (by simp)
  | cons m rest ih =>
    intro h n hn
    simp only [hcNews] at h
    cases hm : headE m with
    | error e => rw [hm] at h; exact absurd h (by simp)
    | ok hmv =>
      rw [hm] at h
      cases hc : headE c with
      | error e => rw [hc] at h; exact absurd h (by simp)
      | ok hcv =>
        rw [hc] at h
        cases hr : hcNews c rest with
        | error e => rw [hr] at h; exact absurd h (by simp)
        | ok s0 =>
          rw [hr] at h
          have h' : (Except.ok
              (if hmv = hcv ∧ ¬ tautology m then insert m s0 else s0) :
                Except Unit (Finset Clause)) = .ok s := h
          have hs : (if hmv = hcv ∧ ¬ tautology m then insert m s0 else s0) = s := by
            injection h'
          subst hs
          by_cases hcond : hmv = hcv ∧ ¬ tautology m
          · rw [if_pos hcond] at hn
            rcases Finset.mem_insert.1 hn with rfl | hmem
            · refine ⟨⟨hcv, ?_, headE_ok_iff.1 hc⟩, hcond.2⟩
              rw [← hcond.1]
              exact headE_ok_iff.1 hm
            · exact ih hr n hmem
          · rw [if_neg hcond] at hn
            exact ih hr n hn

theorem hcInner_spec {c : Clause} {acc2 : Finset Clause} :
    ∀ {lu : List Clause} {acc : Finset Clause}, hcInner c acc lu = .ok acc2 →
      ∀ n ∈ acc2, n ∈ acc ∨
        ((∃ h, headOpt n = some h ∧ headOpt c = some h) ∧ ¬ tautology n) := by
  intro lu
  induction lu with
  | nil =>
    intro acc h n hn
    simp only [hcInner, Except.ok.injEq] at h
    subst h
    exact Or.inl hn
  | cons u rest ih =>
    intro acc h n hn
    simp only [hcInner] at h
    cases hns : hcNews c (enumClauses (resolve c u)) with
    | error e => rw [hns] at h; exact absurd h (by simp)
    | ok ns =>
      rw [hns] at h
      rcases ih h n hn with hmem | hnew
      · rcases Finset.mem_union.1 hmem with hmem' | hmem'
        · exact Or.inl hmem'
        · exact Or.inr (hcNews_spec hns n hmem')
      · exact Or.inr hnew

theorem hcInner_litset {S : Finset Lit} {c : Clause} {acc2 : Finset Clause}
    (hc : c ⊆ S) :
    ∀ {lu : List Clause} {acc : Finset Clause},
      (∀ u ∈ lu, u ⊆ S) → (∀ a ∈ acc, a ⊆ S) →
      hcInner c acc lu = .ok acc2 → ∀ a ∈ acc2, a ⊆ S := by
  intro lu
  induction lu with
  | nil =>
    intro acc _ hacc h
    simp only [hcInner, Except.ok.injEq] at h
    subst h
    exact hacc
  | cons u rest ih =>
    intro acc hlu hacc h
    simp only [hcInner] at h
    cases hns : hcNews c (enumClauses (resolve c u)) with
    | error e => rw [hns] at h; exact absurd h (by simp)
    | ok ns =>
      rw [hns] at h
      refine ih (fun v hv => hlu v (by simp [hv])) ?_ h
      intro n hn
      rcases Finset.mem_union.1 hn with hmem | hmem
      · exact hacc n hmem
      · have hres : n ∈ resolve c u :=
          mem_enumClauses.1 (List.mem_toFinset.1 (hcNews_subset hns n hmem))
        have hsub : n ⊆ c ∪ u := resolve_subset hres
        exact subset_trans hsub (Finset.union_subset hc (hlu u (by simp)))

theorem hcInner_grows {c : Clause} {acc2 : Finset Clause} :
    ∀ {lu : List Clause} {acc : Finset Clause},
      hcInner c acc lu = .ok acc2 → acc ⊆ acc2 := by
  intro lu
  induction lu with
  | nil =>
    intro acc h
    simp only [hcInner, Except.ok.injEq] at h
    subst h
    exact subset_rfl
  | cons u rest ih =>
    intro acc h
    simp only [hcInner] at h
    cases hns : hcNews c (enumClauses (resolve c u)) with
    | error e => rw [hns] at h; exact absurd h (by simp)
    | ok ns =>
      rw [hns] at h
      exact subset_trans Finset.subset_union_left (ih h)

theorem hcOuter_spec {heads : Finset Lit} {usableL : List Clause} {acc2 : Finset Clause} :
    ∀ {lc : List Clause} {acc : Finset Clause},
      (∀ c ∈ lc, ∃ h, headOpt c = some h ∧ h ∈ heads) →
      hcOuter usableL acc lc = .ok acc2 →
      ∀ n ∈ acc2, n ∈ acc ∨
        ((∃ h, headOpt n = some h ∧ h ∈ heads) ∧ ¬ tautology n) := by
  intro lc
  induction lc with
  | nil =>
    intro acc _ h n hn
    simp only [hcOuter, Except.ok.injEq] at h
    subst h
    exact Or.inl hn
  | cons c rest ih =>
    intro acc hlc h n hn
    simp only [hcOuter] at h
    cases hin : hcInner c acc usableL with
    | error e => rw [hin] at h; exact absurd h (by simp)
    | ok accm =>
      rw [hin] at h
      rcases ih (fun d hd => hlc d (by simp [hd])) h n hn with hmem | hnew
      · rcases hcInner_spec hin n hmem with hmem' | hnew'
        · exact Or.inl hmem'
        · obtain ⟨⟨hd, hhn, hhc⟩, hnt⟩ := hnew'
          obtain ⟨hd', hhc', hmem⟩ := hlc c (by simp)
          rw [hhc'] at hhc
          refine Or.inr ⟨⟨hd, hhn, ?_⟩, hnt⟩
          cases hhc
          exact hmem
      · exact Or.inr hnew

theorem hcOuter_litset {S : Finset Lit} {usable : Finset Clause} {acc2 : Finset Clause}
    (husable : ∀ u ∈ usable, u ⊆ S) :
    ∀ {lc : List Clause} {acc : Finset Clause},
      (∀ c ∈ lc, c ⊆ S) → (∀ a ∈ acc, a ⊆ S) →
      hcOuter (enumClauses usable) acc lc = .ok acc2 → ∀ a ∈ acc2, a ⊆ S := by
  intro lc
  induction lc with
  | nil =>
    intro acc _ hacc h
    simp only [hcOuter, Except.ok.injEq] at h
    subst h
    exact hacc
  | cons c rest ih =>
    intro acc hlc hacc h
    simp only [hcOuter] at h
    cases hin : hcInner c acc (enumClauses usable) with
    | error e => rw [hin] at h; exact absurd h (by simp)
    | ok accm =>
      rw [hin] at h
      refine ih (fun d hd => hlc d (by simp [hd])) ?_ h
      exact hcInner_litset (hlc c (by simp))
        (fun u hu => husable u (mem_enumClauses.1 hu)) hacc hin

theorem minimal_subset (s e : Finset Clause) : minimal s e ⊆ s :=
  Finset.filter_subset _ _

theorem hcloseGo_spec {heads : Finset Lit} {usable : Finset Clause} :
    ∀ {fuel : Nat} {closure resolved cl : Finset Clause},
      (∀ c ∈ closure, (∃ h, headOpt c = some h ∧ h ∈ heads) ∧
        (c ∈ usable ∨ ¬ tautology c)) →
      hcloseGo (enumClauses usable) fuel closure resolved = some (.ok cl) →
      ∀ c ∈ cl, (∃ h, headOpt c = some h ∧ h ∈ heads) ∧
        (c ∈ usable ∨ ¬ tautology c) := by
  intro fuel
  induction fuel with
  | zero => intro closure resolved cl _ h; exact absurd h (by simp [hcloseGo])
  | succ n ih =>
    intro closure resolved cl hinv h
    simp only [hcloseGo] at h
    by_cases hemp : closure \ resolved = ∅
    · rw [if_pos hemp] at h
      simp only [Option.some.injEq, Except.ok.injEq] at h
      subst h
      exact hinv
    · rw [if_neg hemp] at h
      cases ho : hcOuter (enumClauses usable) closure (enumClauses (closure \ resolved)) with
      | error e => rw [ho] at h; exact absurd h (by simp)
      | ok closure2 =>
        rw [ho] at h
        refine ih ?_ h
        intro c hc
        have hc2 : c ∈ closure2 := minimal_subset _ _ hc
        have hlc : ∀ d ∈ enumClauses (closure \ resolved),
            ∃ hd, headOpt d = some hd ∧ hd ∈ heads := by
          intro d hd
          exact (hinv d (Finset.mem_sdiff.1 (mem_enumClauses.1 hd)).1).1
        rcases hcOuter_spec hlc ho c hc2 with hmem | hnew
        · exact hinv c hmem
        · exact ⟨hnew.1, Or.inr hnew.2⟩

theorem hcloseGo_ne_none {usable : Finset Clause} {S : Finset Lit}
    (husable : ∀ u ∈ usable, u ⊆ S) :
    ∀ {fuel : Nat} {closure resolved : Finset Clause},
      (∀ c ∈ closure, c ⊆ S) → (∀ c ∈ resolved, c ⊆ S) →
      (S.powerset \ resolved).card < fuel →
      hcloseGo (enumClauses usable) fuel closure resolved ≠ none := by
  intro fuel
  induction fuel with
  | zero => intro closure resolved _ _ h; omega
  | succ n ih =>
    intro closure resolved hcl hr hcard
    simp only [hcloseGo]
    by_cases hemp : closure \ resolved = ∅
    · simp [hemp]
    · rw [if_neg hemp]
      cases ho : hcOuter (enumClauses usable) closure (enumClauses (closure \ resolved)) with
      | error e => simp
      | ok closure2 =>
        have hc2 : ∀ a ∈ closure2, a ⊆ S := by
          refine hcOuter_litset husable ?_ hcl ho
          intro d hd
          exact hcl d (Finset.mem_sdiff.1 (mem_enumClauses.1 hd)).1
        refine ih (fun a ha => hc2 a (minimal_subset _ _ ha)) ?_ ?_
        · intro c hc
          rcases Finset.mem_union.1 hc with h' | h'
          · exact hr c h'
          · exact hcl c (Finset.mem_sdiff.1 h').1
        · obtain ⟨t, ht⟩ := Finset.nonempty_iff_ne_empty.2 hemp
          have htc : t ∈ S.powerset :=
            Finset.mem_powerset.2 (hcl t (Finset.mem_sdiff.1 ht).1)
          have htr : t ∉ resolved := (Finset.mem_sdiff.1 ht).2
          have hsub : S.powerset \ (resolved ∪ closure \ resolved) ⊆
              (S.powerset \ resolved).erase t := by
            intro y hy
            rcases Finset.mem_sdiff.1 hy with ⟨hy1, hy2⟩
            refine Finset.mem_erase.2 ⟨?_, Finset.mem_sdiff.2 ⟨hy1, ?_⟩⟩
            · rintro rfl
              exact hy2 (Finset.mem_union.2 (Or.inr ht))
            · intro hcon
              exact hy2 (Finset.mem_union.2 (Or.inl hcon))
          calc (S.powerset \ (resolved ∪ closure \ resolved)).card
              ≤ ((S.powerset \ resolved).erase t).card := Finset.card_le_card hsub
            _ < (S.powerset \ resolved).card :=
                Finset.card_erase_lt_of_mem (Finset.mem_sdiff.2 ⟨htc, htr⟩)
            _ ≤ n := by omega

theorem hcSeed_spec {heads : Finset Lit} {s : Finset Clause} :
    ∀ {l : List Clause}, hcSeed heads l = .ok s →
      ∀ c ∈ s, c ∈ l.toFinset ∧ ∃ h, headOpt c = some h ∧ h ∈ heads := by
  intro l
  induction l generalizing s with
  | nil =>
    intro h c hc
    simp only [hcSeed, Except.ok.injEq] at h
    subst h
    exact absurd hc (by simp)
  | cons d rest ih =>
    intro h c hc
    simp only [hcSeed] at h
    cases hd : headE d with
    | error e => rw [hd] at h; exact absurd h (by simp)
    | ok hdv =>
      rw [hd] at h
      cases hr : hcSeed heads rest with
      | error e => rw [hr] at h; exact absurd h (by simp)
      | ok s0 =>
        rw [hr] at h
        have h' : (Except.ok
            (if hdv ∈ heads then insert d s0 else s0) :
              Except Unit (Finset Clause)) = .ok s := h
        have hs : (if hdv ∈ heads then insert d s0 else s0) = s := by injection h'
        subst hs
        by_cases hcond : hdv ∈ heads
        · rw [if_pos hcond] at hc
          rcases Finset.mem_insert.1 hc with rfl | hmem
          · exact ⟨by simp, hdv, headE_ok_iff.1 hd, hcond⟩
          · obtain ⟨hm, hh⟩ := ih hr c hmem
            exact ⟨by simp [hm], hh⟩
        · rw [if_neg hcond] at hc
          obtain ⟨hm, hh⟩ := ih hr c hc
          exact ⟨by simp [hm], hh⟩

theorem hcloseRun_isSome (usable closure : Finset Clause) :
    (hcloseGo (enumClauses usable) (hcFuel closure usable) closure ∅).isSome := by
  refine Option.ne_none_iff_isSome.1
    (@hcloseGo_ne_none usable (hcLitUniv closure usable) ?_ (hcFuel closure usable)
      closure ∅ ?_ (by simp) ?_)
  · intro u hu
    show u ≤ (usable ∪ closure).sup id
    exact @Finset.le_sup (Finset Lit) (Finset Lit) _ _ (usable ∪ closure) id u
      (Finset.mem_union.2 (Or.inl hu))
  · intro c hc
    show c ≤ (usable ∪ closure).sup id
    exact @Finset.le_sup (Finset Lit) (Finset Lit) _ _ (usable ∪ closure) id c
      (Finset.mem_union.2 (Or.inr hc))
  · simp only [hcFuel, Finset.sdiff_empty]
    omega

/-- `hclose(heads, usable)`: seed with the usable clauses whose head is in
`heads`, minimize, then close under head-preserving resolution with the
usable clauses, minimizing after every round. -/
def hcloseE (heads : Finset Lit) (usable : Finset Clause) : Except Unit (Finset Clause) :=
  match hcSeed heads (enumClauses usable) with
  | .error e => .error e
  | .ok seed =>
    (hcloseGo (enumClauses usable) (hcFuel (minimal seed ∅) usable) (minimal seed ∅) ∅).get
      (hcloseRun_isSome usable (minimal seed ∅))

/-- Claim C5, counterexample: the claim "no clause in `hclose(H, U)` is a
tautology" fails as stated.  With `H = {a}` and `U = {{a, -a}}` the
tautological clause `{a, -a}` has head `a ∈ H`, is copied unfiltered into
the seed of the closure, resolves only to tautologies, and so survives into
the returned set. -/
theorem hclose_taut_counterexample :
    hcloseE {⟨0,0⟩} {{⟨0,0⟩,⟨1,0⟩}} = .ok {{⟨0,0⟩,⟨1,0⟩}} ∧
    ({⟨0,0⟩,⟨1,0⟩} : Clause) ∈ ({{⟨0,0⟩,⟨1,0⟩}} : Finset Clause) ∧
    tautology ({⟨0,0⟩,⟨1,0⟩} : Clause) := by
  refine ⟨by decide, by decide, by decide⟩

/-- Claim C5 (amended): every clause of `hclose(H, U)` has its head in `H`,
and every clause of `hclose(H, U)` that is not itself a clause of `U` is
non-tautological.  (The original claim — no member is a tautology at all —
fails because the seed copies clauses of `U` unfiltered; only the added
resolvents are tautology-checked.) -/
theorem hclose_heads_and_nontaut (heads : Finset Lit) (usable : Finset Clause)
    (cl : Finset Clause) (h : hcloseE heads usable = .ok cl) :
    ∀ c ∈ cl, (∃ hd, headOpt c = some hd ∧ hd ∈ heads) ∧
      (c ∉ usable → ¬ tautology c) := by
  unfold hcloseE at h
  cases hs : hcSeed heads (enumClauses usable) with
  | error e => rw [hs] at h; exact absurd h (by simp)
  | ok seed =>
    rw [hs] at h
    have hg : hcloseGo (enumClauses usable) (hcFuel (minimal seed ∅) usable)
        (minimal seed ∅) ∅ = some (.ok cl) := by
      rw [← h]
      exact (Option.some_get _).symm
    have hall := @hcloseGo_spec heads usable _ _ _ _ ?_ hg
    · intro c hc
      obtain ⟨hh, hu⟩ := hall c hc
      refine ⟨hh, ?_⟩
      intro hnu
      rcases hu with h' | h'
      · exact absurd h' hnu
      · exact h'
    · intro c hc
      obtain ⟨hm, hh⟩ := hcSeed_spec hs c (minimal_subset _ _ hc)
      rw [List.mem_toFinset, mem_enumClauses] at hm
      exact ⟨hh, Or.inl hm⟩

theorem hclose_heads_and_nontaut_witness :
    hcloseE {⟨0,1⟩} {{⟨1,0⟩,⟨0,1⟩}} = .ok {{⟨1,0⟩,⟨0,1⟩}} ∧
    (∀ c ∈ ({{⟨1,0⟩,⟨0,1⟩}} : Finset Clause),
      (∃ hd, headOpt c = some hd ∧ hd ∈ ({⟨0,1⟩} : Finset Lit)) ∧
      (c ∉ ({{⟨1,0⟩,⟨0,1⟩}} : Finset Clause) → ¬ tautology c)) :=
  ⟨by decide,
    hclose_heads_and_nontaut {⟨0,1⟩} {{⟨1,0⟩,⟨0,1⟩}} {{⟨1,0⟩,⟨0,1⟩}} (by decide)⟩

/-! ### `minbodies`: minimal-bodies search -/

/-- The inner `for bc in minbcl` scan of `minbodies`: first clause `bc`
containing `-head(c)` such that `b == (bc | c) - {head(c), -head(c)}`. -/
def mbFind (minbclL : List Clause) (c : Clause) (hc : Lit) (b : Clause) : Option Clause :=
  minbclL.find? (fun bc => decide (hc.negate ∈ bc ∧ b = (bc ∪ c) \ {hc, hc.negate}))

/-- The `for c in uclscl` pass of `minbodies`: rewrites the current clause
`b` by back-chaining steps; returns the pass outcome `(broke, b, trace,
done)`, where `broke` records the `bprev = b; break` exit. -/
def mbFor (minbcl : Finset Clause) (minset : Finset (Finset Lit)) :
    Clause → Finset Clause → Finset Clause → List Clause →
    Except Unit (Bool × Clause × Finset Clause × Finset Clause)
  | b, trace, done, [] => .ok (false, b, trace, done)
  | b, trace, done, c :: rest =>
    if body c ⊆ body b then
      match headE c with
      | .error e => .error e
      | .ok hc =>
        match mbFind (enumClauses minbcl) c hc b with
        | none => mbFor minbcl minset b trace done rest
        | some bc =>
          if bc ∈ trace then mbFor minbcl minset b trace done rest
          else if bc ∈ done ∨ body bc ∈ minset then .ok (true, b, trace, done)
          else mbFor minbcl minset bc (insert bc trace) (insert bc done) rest
    else mbFor minbcl minset b trace done rest

/-- The `while bprev != b` loop of `minbodies`, on fuel.  On a pass with no
break and no change of `b`, `body(b)` is committed to the minimal set. -/
def mbWhile (minbcl : Finset Clause) (uclsclL : List Clause)
    (minset : Finset (Finset Lit)) :
    Nat → Clause → Finset Clause → Finset Clause →
    Option (Except Unit (Finset Clause × Finset (Finset Lit)))
  | 0, _, _, _ => none
  | fuel + 1, b, trace, done =>
    match mbFor minbcl minset b trace done uclsclL with
    | .error e => some (.error e)
    | .ok (broke, b2, trace2, done2) =>
      if broke then some (.ok (done2, minset))
      else if b2 = b then some (.ok (done2, insert (body b2) minset))
      else mbWhile minbcl uclsclL minset fuel b2 trace2 done2

/-- Fuel sufficient for the `minbodies` walk: the trace grows inside
`minbcl` on every continued iteration. -/
def mbFuel (minbcl : Finset Clause) : Nat := minbcl.card + 1

theorem mbFor_trace {minbcl : Finset Clause} {minset : Finset (Finset Lit)}
    {br : Bool} {b2 : Clause} {t2 d2 : Finset Clause} :
    ∀ {l : List Clause} {b : Clause} {trace done : Finset Clause},
      mbFor minbcl minset b trace done l = .ok (br, b2, t2, d2) →
      trace ⊆ t2 ∧ t2 ⊆ trace ∪ minbcl ∧
        (b2 ≠ b → ∃ x, x ∈ minbcl ∧ x ∉ trace ∧ x ∈ t2) := by
  intro l
  induction l with
  | nil =>
    intro b trace done h
    simp only [mbFor, Except.ok.injEq, Prod.mk.injEq] at h
    obtain ⟨_, rfl, rfl, rfl⟩ := h
    exact ⟨subset_rfl, Finset.subset_union_left, fun hne => absurd rfl hne⟩
  | cons c rest ih =>
    intro b trace done h
    simp only [mbFor] at h
    by_cases hbody : body c ⊆ body b
    · rw [if_pos hbody] at h
      cases hh : headE c with
      | error e => rw [hh] at h; exact absurd h (by simp)
      | ok hc =>
        rw [hh] at h
        have h' : (match mbFind (enumClauses minbcl) c hc b with
            | none => mbFor minbcl minset b trace done rest
            | some bc =>
              if bc ∈ trace then mbFor minbcl minset b trace done rest
              else if bc ∈ done ∨ body bc ∈ minset then Except.ok (true, b, trace, done)
              else mbFor minbcl minset bc (insert bc trace) (insert bc done) rest) =
            Except.ok (br, b2, t2, d2) := h
        clear h
        cases hf : mbFind (enumClauses minbcl) c hc b with
        | none => rw [hf] at h'; exact ih h'
        | some bc =>
          rw [hf] at h'
          have h'' : (if bc ∈ trace then mbFor minbcl minset b trace done rest
              else if bc ∈ done ∨ body bc ∈ minset then Except.ok (true, b, trace, done)
              else mbFor minbcl minset bc (insert bc trace) (insert bc done) rest) =
              Except.ok (br, b2, t2, d2) := h'
          clear h'
          by_cases htr : bc ∈ trace
          · rw [if_pos htr] at h''
            exact ih h''
          · rw [if_neg htr] at h''
            by_cases hdm : bc ∈ done ∨ body bc ∈ minset
            · rw [if_pos hdm] at h''
              simp only [Except.ok.injEq, Prod.mk.injEq] at h''
              obtain ⟨_, rfl, rfl, rfl⟩ := h''
              exact ⟨subset_rfl, Finset.subset_union_left, fun hne => absurd rfl hne⟩
            · rw [if_neg hdm] at h''
              obtain ⟨h1, h2, _⟩ := ih h''
              have hbc : bc ∈ minbcl := by
                have := List.mem_of_find?_eq_some hf
                exact mem_enumClauses.1 this
              refine ⟨subset_trans (Finset.subset_insert _ _) h1, ?_, ?_⟩
              · refine subset_trans h2 ?_
                intro y hy
                rcases Finset.mem_union.1 hy with hy' | hy'
                · rcases Finset.mem_insert.1 hy' with rfl | hy''
                  · exact Finset.mem_union.2 (Or.inr hbc)
                  · exact Finset.mem_union.2 (Or.inl hy'')
                · exact Finset.mem_union.2 (Or.inr hy')
              · intro _
                exact ⟨bc, hbc, htr, h1 (Finset.mem_insert_self _ _)⟩
    · rw [if_neg hbody] at h
      exact ih h

theorem mbWhile_ne_none {minbcl : Finset Clause} {uclsclL : List Clause} :
    ∀ {fuel : Nat} {minset : Finset (Finset Lit)} {b : Clause}
      {trace done : Finset Clause},
      (minbcl \ trace).card < fuel →
      mbWhile minbcl uclsclL minset fuel b trace done ≠ none := by
  intro fuel
  induction fuel with
  | zero => intro minset b trace done h; omega
  | succ n ih =>
    intro minset b trace done hcard
    simp only [mbWhile]
    cases hf : mbFor minbcl minset b trace done uclsclL with
    | error e => simp
    | ok r =>
      obtain ⟨br, b2, t2, d2⟩ := r
      show (if br = true then some (Except.ok (d2, minset))
        else if b2 = b then some (Except.ok (d2, insert (body b2) minset))
        else mbWhile minbcl uclsclL minset n b2 t2 d2) ≠ none
      by_cases hbr : br = true
      · simp [hbr]
      · rw [if_neg hbr]
        by_cases hb2 : b2 = b
        · simp [hb2]
        · rw [if_neg hb2]
          obtain ⟨h1, _, h3⟩ := mbFor_trace hf
          obtain ⟨x, hx1, hx2, hx3⟩ := h3 hb2
          refine ih ?_
          have hsub : minbcl \ t2 ⊆ (minbcl \ trace).erase x := by
            intro y hy
            rcases Finset.mem_sdiff.1 hy with ⟨hy1, hy2⟩
            refine Finset.mem_erase.2 ⟨?_, Finset.mem_sdiff.2 ⟨hy1, ?_⟩⟩
            · rintro rfl
              exact hy2 hx3
            · intro hcon
              exact hy2 (h1 hcon)
          calc (minbcl \ t2).card ≤ ((minbcl \ trace).erase x).card :=
                Finset.card_le_card hsub
            _ < (minbcl \ trace).card :=
                Finset.card_erase_lt_of_mem (Finset.mem_sdiff.2 ⟨hx1, hx2⟩)
            _ ≤ n := by omega

theorem mbWhile_isSome (minbcl : Finset Clause) (uclsclL : List Clause)
    (minset : Finset (Finset Lit)) (b : Clause) (trace done : Finset Clause) :
    (mbWhile minbcl uclsclL minset (mbFuel minbcl) b trace done).isSome :=
  Option.ne_none_iff_isSome.1 (mbWhile_ne_none (by
    simp only [mbFuel]
    have := Finset.card_le_card (show minbcl \ trace ⊆ minbcl from Finset.sdiff_subset)
    omega))

/-- The `for b in minbcl` loop of `minbodies`. -/
def mbOuter (minbcl : Finset Clause) (uclsclL : List Clause) :
    Finset Clause → Finset (Finset Lit) → List Clause →
    Except Unit (Finset Clause × Finset (Finset Lit))
  | done, minset, [] => .ok (done, minset)
  | done, minset, b :: rest =>
    if b ∈ done ∨ body b ∈ minset then mbOuter minbcl uclsclL done minset rest
    else
      match (mbWhile minbcl uclsclL minset (mbFuel minbcl) b {b} (insert b done)).get
          (mbWhile_isSome minbcl uclsclL minset b {b} (insert b done)) with
      | .error e => .error e
      | .ok (done2, minset2) => mbOuter minbcl uclsclL done2 minset2 rest

/-- `minbodies(minbcl, uclscl)`: the set of minimal bodies found by the
guided back-chaining walk. -/
def minbodiesE (minbcl uclscl : Finset Clause) : Except Unit (Finset (Finset Lit)) :=
  match mbOuter minbcl (enumClauses uclscl) ∅ ∅ (enumClauses minbcl) with
  | .error e => .error e
  | .ok r => .ok r.2

/-! ### `reconstruct`: the driver -/

/-- `rcn[p]`: heads component of `rcnucl(p, f)` (the driver precomputes the
dictionary after checking that no entry raises, so the default is never
observed). -/
def rcnOf (f : Formula) (p : Finset Lit) : Finset Lit :=
  match rcnucl p f with
  | .ok r => r.1
  | .error _ => ∅

/-- `ucl[p]`: usable component of `rcnucl(p, f)`. -/
def uclOf (f : Formula) (p : Finset Lit) : Finset Clause :=
  match rcnucl p f with
  | .ok r => r.2
  | .error _ => ∅

/-- The selection pass `for t in preconditions: if rcn[t] | t < rcn[p] | p:
p = t`, starting from `p = next(iter(preconditions))`. -/
def selectP (f : Formula) : Finset Lit → List (Finset Lit) → Finset Lit
  | p, [] => p
  | p, t :: rest =>
    if rcnOf f t ∪ t ⊂ rcnOf f p ∪ p then selectP f t rest else selectP f p rest

/-- `allbodies = {l for e in c for l in e}` for a tuple `c` of bodies. -/
def allBodiesOf (c : List (Finset Lit)) : Finset Lit := c.foldr (fun e acc => e ∪ acc) ∅

/-- Build the candidate clause set from `zip(pheads, c)`; `none` when some
head occurs in its assigned body (the tautology skip). -/
def buildIt : List Lit → List (Finset Lit) → Option (Finset Clause)
  | h :: hs, b :: bs =>
    if h ∈ b then none
    else
      match buildIt hs bs with
      | none => none
      | some s => some (insert ((b.image Lit.negate) ∪ {h}) s)
  | _, _ => some ∅

/-- `itertools.product(pbodies, repeat = n)` in lexicographic order of the
enumeration, first component outermost. -/
def prodLists (l : List (Finset Lit)) : Nat → List (List (Finset Lit))
  | 0 => [[]]
  | n + 1 => l.flatMap (fun x => (prodLists l n).map (fun t => x :: t))

/-- The `for b in pbodies` validation: `True` means some minimal body `b`
has `rcnucl(b, constructed | it)[0] != rcn[p]` (the `noteq` flag). -/
def checkBodies (git : Formula) (target : Finset Lit) :
    List (Finset Lit) → Except Unit Bool
  | [] => .ok false
  | b :: rest =>
    match rcnucl b git with
    | .error e => .error e
    | .ok r => if r.1 ≠ target then .ok true else checkBodies git target rest

/-- The combination search: try the body tuples in product order and return
the first `it` (with its `allbodies`) passing all validations, `none` when
the enumeration is exhausted (the `for ... else: return None`). -/
def searchCombos (p : Finset Lit) (constructed : Formula) (rcnp : Finset Lit)
    (pheads : List Lit) (inbodies headlessbodies : Finset Lit)
    (pbodiesL : List (Finset Lit)) (ptarget : Finset Clause) :
    List (List (Finset Lit)) → Except Unit (Option (Finset Clause × Finset Lit))
  | [] => .ok none
  | c :: rest =>
    if ¬ (inbodies ∪ headlessbodies ⊆ allBodiesOf c) then
      searchCombos p constructed rcnp pheads inbodies headlessbodies pbodiesL ptarget rest
    else
      match buildIt pheads c with
      | none =>
        searchCombos p constructed rcnp pheads inbodies headlessbodies pbodiesL ptarget rest
      | some it =>
        match rcnucl p (constructed ∪ it) with
        | .error e => .error e
        | .ok git =>
          if git.1 ≠ rcnp then
            searchCombos p constructed rcnp pheads inbodies headlessbodies pbodiesL ptarget rest
          else
            match checkBodies (constructed ∪ it) rcnp pbodiesL with
            | .error e => .error e
            | .ok true =>
              searchCombos p constructed rcnp pheads inbodies headlessbodies pbodiesL ptarget rest
            | .ok false =>
              match hcloseE git.1 git.2 with
              | .error e => .error e
              | .ok cl =>
                if ptarget = cl then .ok (some (it, allBodiesOf c))
                else searchCombos p constructed rcnp pheads inbodies headlessbodies
                  pbodiesL ptarget rest

/-- The main `while preconditions` loop of `reconstruct`, on fuel (the
preconditions set loses at least the selected element each iteration). -/
def reconLoop (f : Formula) :
    Nat → Finset (Finset Lit) → Formula → Finset Lit → Finset Lit → Finset Clause →
    Option (Except Unit (Option Formula))
  | 0, _, _, _, _, _ => none
  | fuel + 1, preconditions, constructed, cbodies, bodied, used =>
    match enumClauses preconditions with
    | [] => some (.ok (some constructed))
    | p0 :: rest =>
      let p := selectP f p0 (p0 :: rest)
      let pre2 := preconditions.filter (fun t => ¬ t ⊆ rcnOf f p ∪ p)
      let pheads := enumLits (rcnOf f p \ bodied)
      match rcnucl (p ∪ pheads.toFinset) constructed with
      | .error e => some (.error e)
      | .ok maxr =>
        if ¬ (rcnOf f p ⊆ pheads.toFinset ∪ maxr.1) then some (.ok none)
        else
          match hcloseE pheads.toFinset (uclOf f p) with
          | .error e => some (.error e)
          | .ok headbodies =>
            match minbodiesE headbodies (uclOf f p ∩ used) with
            | .error e => some (.error e)
            | .ok pbodies =>
              let inbodies := (bodies headbodies).sup id \ cbodies
              match hcloseE (rcnOf f p ∩ bodied) (uclOf f p) with
              | .error e => some (.error e)
              | .ok headless =>
                let headlessbodies := ((bodies headless).sup id \ cbodies) \ inbodies
                if headlessbodies ≠ ∅ then some (.ok none)
                else
                  if headbodies ∪ headless = ∅ then
                    reconLoop f fuel pre2 constructed cbodies bodied used
                  else
                    match searchCombos p constructed (rcnOf f p) pheads inbodies
                        headlessbodies (enumClauses pbodies) (headbodies ∪ headless)
                        (prodLists (enumClauses pbodies) pheads.length) with
                    | .error e => some (.error e)
                    | .ok none => some (.ok none)
                    | .ok (some (it, allbodies)) =>
                      reconLoop f fuel pre2 (constructed ∪ it) (cbodies ∪ allbodies)
                        (bodied ∪ pheads.toFinset) (used ∪ uclOf f p)

theorem selectP_mem {f : Formula} {S : Finset (Finset Lit)} :
    ∀ {l : List (Finset Lit)} {p0 : Finset Lit}, p0 ∈ S → (∀ t ∈ l, t ∈ S) →
      selectP f p0 l ∈ S := by
  intro l
  induction l with
  | nil => intro p0 hp0 _; exact hp0
  | cons t rest ih =>
    intro p0 hp0 hl
    simp only [selectP]
    by_cases hc : rcnOf f t ∪ t ⊂ rcnOf f p0 ∪ p0
    · rw [if_pos hc]
      exact ih (hl t (by simp)) (fun u hu => hl u (by simp [hu]))
    · rw [if_neg hc]
      exact ih hp0 (fun u hu => hl u (by simp [hu]))

theorem reconLoop_ne_none {f : Formula} :
    ∀ {fuel : Nat} {pre : Finset (Finset Lit)} {constructed : Formula}
      {cbodies bodied : Finset Lit} {used : Finset Clause},
      pre.card < fuel →
      reconLoop f fuel pre constructed cbodies bodied used ≠ none := by
  intro fuel
  induction fuel with
  | zero => intro pre _ _ _ _ h; omega
  | succ n ih =>
    intro pre constructed cbodies bodied used hcard
    simp only [reconLoop]
    split
    · simp
    · rename_i p0 rest heq
      have hp0 : p0 ∈ pre := by
        refine mem_enumClauses.1 ?_
        rw [heq]
        simp
      have hall : ∀ t ∈ p0 :: rest, t ∈ pre := by
        intro t ht
        refine mem_enumClauses.1 ?_
        rw [heq]
        exact ht
      have hpmem : selectP f p0 (p0 :: rest) ∈ pre := selectP_mem hp0 hall
      have hlt : (pre.filter (fun t => ¬ t ⊆
          rcnOf f (selectP f p0 (p0 :: rest)) ∪ selectP f p0 (p0 :: rest))).card < n := by
        have hsub : pre.filter (fun t => ¬ t ⊆
            rcnOf f (selectP f p0 (p0 :: rest)) ∪ selectP f p0 (p0 :: rest)) ⊆
            pre.erase (selectP f p0 (p0 :: rest)) := by
          intro t ht
          rw [Finset.mem_filter] at ht
          refine Finset.mem_erase.2 ⟨?_, ht.1⟩
          rintro rfl
          exact ht.2 Finset.subset_union_right
        have h1 := Finset.card_le_card hsub
        have h2 := Finset.card_erase_lt_of_mem hpmem
        omega
      split
      · simp
      · split
        · simp
        · split
          · simp
          · split
            · simp
            · split
              · simp
              · split
                · simp
                · split
                  · exact ih hlt
                  · split
                    · simp
                    · simp
                    · exact ih hlt

theorem reconLoop_isSome (f : Formula) (pre : Finset (Finset Lit)) :
    (reconLoop f (pre.card + 1) pre ∅ ∅ ∅ ∅).isSome :=
  Option.ne_none_iff_isSome.1 (reconLoop_ne_none (by omega))

instance exceptOkEx {ε α : Type} (x : Except ε α) : Decidable (∃ r, x = Except.ok r) :=
  match x with
  | .ok r => isTrue ⟨r, rfl⟩
  | .error _ => isFalse (by rintro ⟨r, h⟩; exact Except.noConfusion h)

/-- `reconstruct(F)`: simplify `F`, precompute `rcn[p]`/`ucl[p]` for every
body `p` of the simplified formula (an exception in any entry aborts the
whole call), then run the main loop.  `.ok (some G)` models returning the
constructed formula, `.ok none` models `return None`, `.error ()` models an
uncaught `StopIteration`. -/
def reconstruct (F : Formula) : Except Unit (Option Formula) :=
  let f := minimal (detautologize F) ∅
  let preconditions := bodies f
  if ∀ p ∈ preconditions, ∃ r, rcnucl p f = Except.ok r then
    (reconLoop f (preconditions.card + 1) preconditions ∅ ∅ ∅ ∅).get
      (reconLoop_isSome f preconditions)
  else .error ()

theorem selectP_min {f : Formula} :
    ∀ {l : List (Finset Lit)} {p0 : Finset Lit},
      (rcnOf f (selectP f p0 l) ∪ selectP f p0 l ⊆ rcnOf f p0 ∪ p0) ∧
      (∀ t ∈ l, ¬ (rcnOf f t ∪ t ⊂ rcnOf f (selectP f p0 l) ∪ selectP f p0 l)) := by
  intro l
  induction l with
  | nil => intro p0; exact ⟨subset_rfl, by simp⟩
  | cons t rest ih =>
    intro p0
    simp only [selectP]
    by_cases hc : rcnOf f t ∪ t ⊂ rcnOf f p0 ∪ p0
    · rw [if_pos hc]
      obtain ⟨ha, hb⟩ := @ih t
      refine ⟨subset_trans ha hc.subset, ?_⟩
      intro u hu
      rcases List.mem_cons.1 hu with rfl | hmem
      · intro hcon
        exact absurd (lt_of_lt_of_le hcon ha) (lt_irrefl _)
      · exact hb u hmem
    · rw [if_neg hc]
      obtain ⟨ha, hb⟩ := @ih p0
      refine ⟨ha, ?_⟩
      intro u hu
      rcases List.mem_cons.1 hu with rfl | hmem
      · intro hcon
        exact hc (lt_of_lt_of_le hcon ha)
      · exact hb u hmem

/-- Claim C8: in every iteration of the main loop of `reconstruct` the
selected precondition `p` belongs to the working set, satisfies
`p ⊆ rcn[p] ∪ p` (so the subsumption removal deletes at least `p` itself
and the working set strictly shrinks), the single selection pass returns a
minimal element (no precondition `t` has `rcn[t] ∪ t` strictly included in
`rcn[p] ∪ p`), and consequently the loop on fuel `|preconditions| + 1`
never exhausts its fuel. -/
theorem reconstruct_loop_terminates (f : Formula) (pre : Finset (Finset Lit))
    (p0 : Finset Lit) (rest : List (Finset Lit))
    (hen : enumClauses pre = p0 :: rest) :
    selectP f p0 (p0 :: rest) ∈ pre ∧
    selectP f p0 (p0 :: rest) ⊆
      rcnOf f (selectP f p0 (p0 :: rest)) ∪ selectP f p0 (p0 :: rest) ∧
    (pre.filter (fun t => ¬ t ⊆
      rcnOf f (selectP f p0 (p0 :: rest)) ∪ selectP f p0 (p0 :: rest))).card < pre.card ∧
    (∀ t ∈ pre, ¬ (rcnOf f t ∪ t ⊂
      rcnOf f (selectP f p0 (p0 :: rest)) ∪ selectP f p0 (p0 :: rest))) ∧
    ∀ fuel constructed cbodies bodied used, pre.card < fuel →
      reconLoop f fuel pre constructed cbodies bodied used ≠ none := by
  have hp0 : p0 ∈ pre := by
    refine mem_enumClauses.1 ?_
    rw [hen]
    simp
  have hall : ∀ t ∈ p0 :: rest, t ∈ pre := by
    intro t ht
    refine mem_enumClauses.1 ?_
    rw [hen]
    exact ht
  have hpmem : selectP f p0 (p0 :: rest) ∈ pre := selectP_mem hp0 hall
  refine ⟨hpmem, Finset.subset_union_right, ?_, ?_, ?_⟩
  · have hsub : pre.filter (fun t => ¬ t ⊆
        rcnOf f (selectP f p0 (p0 :: rest)) ∪ selectP f p0 (p0 :: rest)) ⊆
        pre.erase (selectP f p0 (p0 :: rest)) := by
      intro t ht
      rw [Finset.mem_filter] at ht
      refine Finset.mem_erase.2 ⟨?_, ht.1⟩
      rintro rfl
      exact ht.2 Finset.subset_union_right
    have h1 := Finset.card_le_card hsub
    have h2 := Finset.card_erase_lt_of_mem hpmem
    omega
  · intro t ht
    refine (@selectP_min f (p0 :: rest) p0).2 t ?_
    rw [← mem_enumClauses, hen] at ht
    exact ht
  · intro fuel constructed cbodies bodied used hcard
    exact reconLoop_ne_none hcard

set_option maxHeartbeats 2000000 in
theorem reconstruct_loop_terminates_witness :
    enumClauses ({{⟨0,0⟩}} : Finset (Finset Lit)) = [{⟨0,0⟩}] ∧
    (selectP {{⟨1,0⟩,⟨0,1⟩}} {⟨0,0⟩} [{⟨0,0⟩}] ∈ ({{⟨0,0⟩}} : Finset (Finset Lit)) ∧
     selectP {{⟨1,0⟩,⟨0,1⟩}} {⟨0,0⟩} [{⟨0,0⟩}] ⊆
       rcnOf {{⟨1,0⟩,⟨0,1⟩}} (selectP {{⟨1,0⟩,⟨0,1⟩}} {⟨0,0⟩} [{⟨0,0⟩}]) ∪
         selectP {{⟨1,0⟩,⟨0,1⟩}} {⟨0,0⟩} [{⟨0,0⟩}] ∧
     (({{⟨0,0⟩}} : Finset (Finset Lit)).filter (fun t => ¬ t ⊆
       rcnOf {{⟨1,0⟩,⟨0,1⟩}} (selectP {{⟨1,0⟩,⟨0,1⟩}} {⟨0,0⟩} [{⟨0,0⟩}]) ∪
         selectP {{⟨1,0⟩,⟨0,1⟩}} {⟨0,0⟩} [{⟨0,0⟩}])).card <
       ({{⟨0,0⟩}} : Finset (Finset Lit)).card ∧
     (∀ t ∈ ({{⟨0,0⟩}} : Finset (Finset Lit)), ¬ (rcnOf {{⟨1,0⟩,⟨0,1⟩}} t ∪ t ⊂
       rcnOf {{⟨1,0⟩,⟨0,1⟩}} (selectP {{⟨1,0⟩,⟨0,1⟩}} {⟨0,0⟩} [{⟨0,0⟩}]) ∪
         selectP {{⟨1,0⟩,⟨0,1⟩}} {⟨0,0⟩} [{⟨0,0⟩}])) ∧
     ∀ fuel constructed cbodies bodied used,
       ({{⟨0,0⟩}} : Finset (Finset Lit)).card < fuel →
       reconLoop {{⟨1,0⟩,⟨0,1⟩}} fuel {{⟨0,0⟩}} constructed cbodies bodied used ≠ none) :=
  ⟨by decide,
    reconstruct_loop_terminates {{⟨1,0⟩,⟨0,1⟩}} {{⟨0,0⟩}} {⟨0,0⟩} [] (by decide)⟩

theorem enumLits_nodup (c : Clause) : (enumLits c).Nodup := by
  rcases c with ⟨m, hnd⟩
  induction m using Quotient.inductionOn with
  | h l =>
    show (l.insertionSort (· ≤ ·)).Nodup
    exact (l.perm_insertionSort (· ≤ ·)).nodup_iff.2 hnd

theorem reach_pos {b : Finset Lit} {f : Finset Clause} {x : Lit}
    (h : Reach b f x) : x.neg = 0 := by
  cases h with
  | intro c hc hd hh hb => exact (headOpt_spec hh).2

theorem rcnOf_pos (f : Formula) (p : Finset Lit) : ∀ h ∈ rcnOf f p, h.neg = 0 := by
  intro h hh
  unfold rcnOf at hh
  cases hr : rcnucl p f with
  | error e => rw [hr] at hh; exact absurd hh (by simp)
  | ok r =>
    rw [hr] at hh
    obtain ⟨H, U⟩ := r
    have hh' : h ∈ H := hh
    exact reach_pos (((rcnuclL_ok_spec hr).1 h).1 hh')

theorem issinglehead_iff {e : Formula} :
    issinglehead e ↔ ∀ c ∈ e, ∀ d ∈ e, ∀ x ∈ c, x ∈ d → x.neg = 0 → c = d := by
  unfold issinglehead
  rw [Multiset.nodup_bind]
  constructor
  · rintro ⟨_, hpw⟩ c hc d hd x hxc hxd hxpos
    by_contra hne
    have hsymm : Symmetric (Disjoint on
        (fun c : Clause => (c.filter (fun l => l.neg = 0)).val)) :=
      fun _ _ hd' => hd'.symm
    have hdisj := Multiset.Pairwise.forall hsymm hpw (Finset.mem_val.2 hc)
      (Finset.mem_val.2 hd) hne
    rw [Function.onFun, Multiset.disjoint_left] at hdisj
    refine @hdisj x ?_ ?_
    · exact Finset.mem_val.2 (Finset.mem_filter.2 ⟨hxc, hxpos⟩)
    · exact Finset.mem_val.2 (Finset.mem_filter.2 ⟨hxd, hxpos⟩)
  · intro h
    refine ⟨fun a _ => (a.filter (fun l => l.neg = 0)).nodup, ?_⟩
    refine Multiset.Nodup.pairwise ?_ e.nodup
    intro a ha b hb hne
    rw [Function.onFun, Multiset.disjoint_left]
    intro x hxa hxb
    have hxa' := Finset.mem_filter.1 (Finset.mem_val.1 hxa)
    have hxb' := Finset.mem_filter.1 (Finset.mem_val.1 hxb)
    exact hne (h a (Finset.mem_val.1 ha) b (Finset.mem_val.1 hb) x
      hxa'.1 hxb'.1 hxa'.2)

theorem filter_pos_built {b : Finset Lit} {h : Lit} (hpos : h.neg = 0) :
    ((b.image Lit.negate ∪ {h}).filter (fun l => l.neg = 0)) = {h} := by
  ext x
  simp only [Finset.mem_filter, Finset.mem_union, Finset.mem_image, Finset.mem_singleton]
  constructor
  · rintro ⟨hm | rfl, hx⟩
    · obtain ⟨y, _, rfl⟩ := hm
      simp [Lit.negate] at hx
    · rfl
  · rintro rfl
    exact ⟨Or.inr rfl, hpos⟩

theorem buildIt_spec : ∀ {hs : List Lit} {bs : List (Finset Lit)} {s : Finset Clause},
    buildIt hs bs = some s →
    ∀ cl ∈ s, ∃ h ∈ hs, ∃ b : Finset Lit, h ∉ b ∧ cl = b.image Lit.negate ∪ {h} := by
  intro hs
  induction hs with
  | nil =>
    intro bs s hb cl hcl
    simp only [buildIt, Option.some.injEq] at hb
    subst hb
    exact absurd hcl (by simp)
  | cons h0 hrest ih =>
    intro bs s hb cl hcl
    cases bs with
    | nil =>
      simp only [buildIt, Option.some.injEq] at hb
      subst hb
      exact absurd hcl (by simp)
    | cons b0 brest =>
      simp only [buildIt] at hb
      by_cases hin : h0 ∈ b0
      · rw [if_pos hin] at hb
        exact absurd hb (by simp)
      · rw [if_neg hin] at hb
        cases hr : buildIt hrest brest with
        | none => rw [hr] at hb; exact absurd hb (by simp)
        | some s0 =>
          rw [hr] at hb
          have hseq : insert (b0.image Lit.negate ∪ {h0}) s0 = s := by injection hb
          subst hseq
          rcases Finset.mem_insert.1 hcl with rfl | hmem
          · exact ⟨h0, by simp, b0, hin, rfl⟩
          · obtain ⟨h, hh, b, hnb, hcleq⟩ := ih hr cl hmem
            exact ⟨h, by simp [hh], b, hnb, hcleq⟩

theorem head_of_built {cl : Clause} {b : Finset Lit} {h x : Lit}
    (hpos : h.neg = 0) (hcl : cl = b.image Lit.negate ∪ {h})
    (hx : x ∈ cl) (hxpos : x.neg = 0) : x = h := by
  have : x ∈ cl.filter (fun l => l.neg = 0) := Finset.mem_filter.2 ⟨hx, hxpos⟩
  rw [hcl, filter_pos_built hpos] at this
  exact Finset.mem_singleton.1 this

theorem buildIt_head_inj : ∀ {hs : List Lit} {bs : List (Finset Lit)} {s : Finset Clause},
    hs.Nodup → (∀ h ∈ hs, h.neg = 0) → buildIt hs bs = some s →
    ∀ c1 ∈ s, ∀ c2 ∈ s, ∀ x, x ∈ c1 → x ∈ c2 → x.neg = 0 → c1 = c2 := by
  intro hs
  induction hs with
  | nil =>
    intro bs s _ _ hb c1 hc1 c2 hc2 x _ _ _
    simp only [buildIt, Option.some.injEq] at hb
    subst hb
    exact absurd hc1 (by simp)
  | cons h0 hrest ih =>
    intro bs s hnd hpos hb c1 hc1 c2 hc2 x hx1 hx2 hxpos
    cases bs with
    | nil =>
      simp only [buildIt, Option.some.injEq] at hb
      subst hb
      exact absurd hc1 (by simp)
    | cons b0 brest =>
      simp only [buildIt] at hb
      by_cases hin : h0 ∈ b0
      · rw [if_pos hin] at hb
        exact absurd hb (by simp)
      · rw [if_neg hin] at hb
        cases hr : buildIt hrest brest with
        | none => rw [hr] at hb; exact absurd hb (by simp)
        | some s0 =>
          rw [hr] at hb
          have hseq : insert (b0.image Lit.negate ∪ {h0}) s0 = s := by injection hb
          subst hseq
          have hnd0 : h0 ∉ hrest := (List.nodup_cons.1 hnd).1
          have hnd' : hrest.Nodup := (List.nodup_cons.1 hnd).2
          have hpos0 : h0.neg = 0 := hpos h0 (by simp)
          rcases Finset.mem_insert.1 hc1 with h1eq | hm1 <;>
            rcases Finset.mem_insert.1 hc2 with h2eq | hm2
          · rw [h1eq, h2eq]
          · exfalso
            have hx1h : x = h0 := head_of_built hpos0 h1eq hx1 hxpos
            obtain ⟨h, hh, b, hnb, hcl2⟩ := buildIt_spec hr c2 hm2
            have hx2h : x = h :=
              head_of_built (hpos h (by simp [hh])) hcl2 hx2 hxpos
            have heq0 : h = h0 := hx2h.symm.trans hx1h
            exact hnd0 (heq0 ▸ hh)
          · exfalso
            have hx2h : x = h0 := head_of_built hpos0 h2eq hx2 hxpos
            obtain ⟨h, hh, b, hnb, hcl1⟩ := buildIt_spec hr c1 hm1
            have hx1h : x = h :=
              head_of_built (hpos h (by simp [hh])) hcl1 hx1 hxpos
            have heq0 : h = h0 := hx1h.symm.trans hx2h
            exact hnd0 (heq0 ▸ hh)
          · exact ih hnd' (fun h hh => hpos h (by simp [hh])) hr c1 hm1 c2 hm2 x hx1 hx2 hxpos

theorem searchCombos_some {p : Finset Lit} {constructed : Formula} {rcnp : Finset Lit}
    {pheads : List Lit} {inb hlb : Finset Lit} {pbodiesL : List (Finset Lit)}
    {ptarget : Finset Clause} {it : Finset Clause} {ab : Finset Lit} :
    ∀ {tuples : List (List (Finset Lit))},
      searchCombos p constructed rcnp pheads inb hlb pbodiesL ptarget tuples =
        .ok (some (it, ab)) →
      ∃ c, buildIt pheads c = some it ∧ ab = allBodiesOf c := by
  intro tuples
  induction tuples with
  | nil =>
    intro h
    simp only [searchCombos] at h
    exact absurd h (by simp)
  | cons c rest ih =>
    intro h
    simp only [searchCombos] at h
    by_cases h1 : ¬ (inb ∪ hlb ⊆ allBodiesOf c)
    · rw [if_pos h1] at h
      exact ih h
    · rw [if_neg h1] at h
      cases hbuild : buildIt pheads c with
      | none => rw [hbuild] at h; exact ih h
      | some it0 =>
        rw [hbuild] at h
        have h2 : (match rcnucl p (constructed ∪ it0) with
            | .error e => .error e
            | .ok git =>
              if git.1 ≠ rcnp then
                searchCombos p constructed rcnp pheads inb hlb pbodiesL ptarget rest
              else
                match checkBodies (constructed ∪ it0) rcnp pbodiesL with
                | .error e => .error e
                | .ok true =>
                  searchCombos p constructed rcnp pheads inb hlb pbodiesL ptarget rest
                | .ok false =>
                  match hcloseE git.1 git.2 with
                  | .error e => .error e
                  | .ok cl =>
                    if ptarget = cl then .ok (some (it0, allBodiesOf c))
                    else searchCombos p constructed rcnp pheads inb hlb pbodiesL
                      ptarget rest) = Except.ok (some (it, ab)) := h
        clear h
        cases hrc : rcnucl p (constructed ∪ it0) with
        | error e => rw [hrc] at h2; exact absurd h2 (by simp)
        | ok git =>
          rw [hrc] at h2
          have h3 : (if git.1 ≠ rcnp then
              searchCombos p constructed rcnp pheads inb hlb pbodiesL ptarget rest
            else
              match checkBodies (constructed ∪ it0) rcnp pbodiesL with
              | .error e => .error e
              | .ok true =>
                searchCombos p constructed rcnp pheads inb hlb pbodiesL ptarget rest
              | .ok false =>
                match hcloseE git.1 git.2 with
                | .error e => .error e
                | .ok cl =>
                  if ptarget = cl then .ok (some (it0, allBodiesOf c))
                  else searchCombos p constructed rcnp pheads inb hlb pbodiesL
                    ptarget rest) = Except.ok (some (it, ab)) := h2
          clear h2
          by_cases hne : git.1 ≠ rcnp
          · rw [if_pos hne] at h3
            exact ih h3
          · rw [if_neg hne] at h3
            cases hcb : checkBodies (constructed ∪ it0) rcnp pbodiesL with
            | error e => rw [hcb] at h3; exact absurd h3 (by simp)
            | ok bv =>
              rw [hcb] at h3
              cases bv with
              | true => exact ih h3
              | false =>
                cases hcl : hcloseE git.1 git.2 with
                | error e => rw [hcl] at h3; exact absurd h3 (by simp)
                | ok cl =>
                  rw [hcl] at h3
                  have h4 : (if ptarget = cl then
                      (Except.ok (some (it0, allBodiesOf c)) :
                        Except Unit (Option (Finset Clause × Finset Lit)))
                    else searchCombos p constructed rcnp pheads inb hlb pbodiesL
                      ptarget rest) = Except.ok (some (it, ab)) := h3
                  clear h3
                  by_cases hpt : ptarget = cl
                  · rw [if_pos hpt] at h4
                    simp only [Except.ok.injEq, Option.some.injEq, Prod.mk.injEq] at h4
                    obtain ⟨rfl, rfl⟩ := h4
                    exact ⟨c, hbuild, rfl⟩
                  · rw [if_neg hpt] at h4
                    exact ih h4

/-- Claim C2: the clauses committed to the constructed formula in one
iteration of `reconstruct` draw their heads from `rcn[p] \ bodied` — one
positive literal each, never a head already used by the constructed
formula — so the constructed formula still satisfies `issinglehead` after
the commit. -/
theorem commit_fresh_heads
    (f : Formula) (p : Finset Lit) (bodied : Finset Lit) (constructed : Formula)
    (inb hlb : Finset Lit) (pbodiesL : List (Finset Lit)) (ptarget : Finset Clause)
    (tuples : List (List (Finset Lit))) (it : Finset Clause) (ab : Finset Lit)
    (hsearch : searchCombos p constructed (rcnOf f p) (enumLits (rcnOf f p \ bodied))
      inb hlb pbodiesL ptarget tuples = Except.ok (some (it, ab)))
    (hcons : ∀ c ∈ constructed, ∀ x ∈ c, x.neg = 0 → x ∈ bodied)
    (hsh : issinglehead constructed) :
    (∀ cl ∈ it, ∃ h, cl.filter (fun l => l.neg = 0) = {h} ∧
      h ∈ rcnOf f p ∧ h ∉ bodied) ∧
    issinglehead (constructed ∪ it) := by
  obtain ⟨ctup, hbuild, _⟩ := searchCombos_some hsearch
  have hposl : ∀ h ∈ enumLits (rcnOf f p \ bodied), h.neg = 0 := by
    intro h hh
    exact rcnOf_pos f p h (Finset.mem_sdiff.1 (mem_enumLits.1 hh)).1
  have hpart1 : ∀ cl ∈ it, ∃ h, cl.filter (fun l => l.neg = 0) = {h} ∧
      h ∈ rcnOf f p ∧ h ∉ bodied := by
    intro cl hcl
    obtain ⟨h, hh, b, hnb, hcleq⟩ := buildIt_spec hbuild cl hcl
    have hmem := Finset.mem_sdiff.1 (mem_enumLits.1 hh)
    refine ⟨h, ?_, hmem.1, hmem.2⟩
    rw [hcleq]
    exact filter_pos_built (hposl h hh)
  refine ⟨hpart1, ?_⟩
  rw [issinglehead_iff]
  intro c hc d hd x hxc hxd hxpos
  rcases Finset.mem_union.1 hc with hc' | hc' <;>
    rcases Finset.mem_union.1 hd with hd' | hd'
  · exact issinglehead_iff.1 hsh c hc' d hd' x hxc hxd hxpos
  · exfalso
    have hxb : x ∈ bodied := hcons c hc' x hxc hxpos
    obtain ⟨h, hflt, _, hnb⟩ := hpart1 d hd'
    have hxd' : x ∈ d.filter (fun l => l.neg = 0) := Finset.mem_filter.2 ⟨hxd, hxpos⟩
    rw [hflt, Finset.mem_singleton] at hxd'
    exact hnb (hxd' ▸ hxb)
  · exfalso
    have hxb : x ∈ bodied := hcons d hd' x hxd hxpos
    obtain ⟨h, hflt, _, hnb⟩ := hpart1 c hc'
    have hxc' : x ∈ c.filter (fun l => l.neg = 0) := Finset.mem_filter.2 ⟨hxc, hxpos⟩
    rw [hflt, Finset.mem_singleton] at hxc'
    exact hnb (hxc' ▸ hxb)
  · exact buildIt_head_inj (enumLits_nodup _) hposl hbuild c hc' d hd' x hxc hxd hxpos

set_option maxHeartbeats 2000000 in
theorem commit_fresh_heads_witness :
    searchCombos {⟨0,0⟩} ∅ (rcnOf {{⟨1,0⟩,⟨0,1⟩}} {⟨0,0⟩})
      (enumLits (rcnOf {{⟨1,0⟩,⟨0,1⟩}} {⟨0,0⟩} \ ∅)) {⟨0,0⟩} ∅ [{⟨0,0⟩}]
      {{⟨1,0⟩,⟨0,1⟩}} [[{⟨0,0⟩}]] = Except.ok (some ({{⟨1,0⟩,⟨0,1⟩}}, {⟨0,0⟩})) ∧
    (∀ c ∈ (∅ : Formula), ∀ x ∈ c, x.neg = 0 → x ∈ (∅ : Finset Lit)) ∧
    issinglehead ∅ ∧
    ((∀ cl ∈ ({{⟨1,0⟩,⟨0,1⟩}} : Finset Clause), ∃ h,
        cl.filter (fun l => l.neg = 0) = {h} ∧
        h ∈ rcnOf {{⟨1,0⟩,⟨0,1⟩}} {⟨0,0⟩} ∧ h ∉ (∅ : Finset Lit)) ∧
      issinglehead ((∅ : Formula) ∪ {{⟨1,0⟩,⟨0,1⟩}})) :=
  ⟨by decide, by decide, by decide,
    commit_fresh_heads {{⟨1,0⟩,⟨0,1⟩}} {⟨0,0⟩} ∅ ∅ {⟨0,0⟩} ∅ [{⟨0,0⟩}]
      {{⟨1,0⟩,⟨0,1⟩}} [[{⟨0,0⟩}]] {{⟨1,0⟩,⟨0,1⟩}} {⟨0,0⟩}
      (by decide) (by decide) (by decide)⟩

/-- Claim C10, counterexample: the claim "for every formula containing a
clause with no positive literal, reconstruct fails with an exception" is
false as stated.  The parser accepts `-a->-a` (producing the clause
`{-a, --a}`, which has no positive literal but is a tautology by the
code's test), and on `{{-a, --a}, {-c, b}}` reconstruct removes the
tautology and returns a formula normally. -/
theorem reconstruct_headless_counterexample :
    (({⟨1,0⟩,⟨2,0⟩} : Clause).filter (fun l => l.neg = 0) = ∅) ∧
    ({⟨1,0⟩,⟨2,0⟩} : Clause) ∈ ({{⟨1,0⟩,⟨2,0⟩}, {⟨1,2⟩,⟨0,1⟩}} : Formula) ∧
    reconstruct {{⟨1,0⟩,⟨2,0⟩}, {⟨1,2⟩,⟨0,1⟩}} = .ok (some {{⟨1,2⟩,⟨0,1⟩}}) :=
  ⟨by decide, by decide, by decide⟩

/-- Claim C10 (amended): for every formula `F` containing a
non-tautological clause with no positive literal — in particular the empty
clause produced by the input form `()` — the call `head(c)` inside
`rcnucl` is undefined, so `reconstruct(F)` neither returns a formula nor
returns `None` but fails with an exception. -/
theorem reconstruct_headless_raises (F : Formula) (c : Clause) (hc : c ∈ F)
    (hnt : ¬ tautology c) (hhl : c.filter (fun l => l.neg = 0) = ∅) :
    reconstruct F = .error () := by
  have hcd : c ∈ detautologize F := Finset.mem_filter.2 ⟨hc, hnt⟩
  -- a minimal headless clause of the simplified formula
  have hTne : ((detautologize F).filter
      (fun d => d.filter (fun l => l.neg = 0) = ∅)).Nonempty :=
    ⟨c, Finset.mem_filter.2 ⟨hcd, hhl⟩⟩
  obtain ⟨c0, hc0, hc0min⟩ := Finset.exists_minimal _ hTne
  rw [Finset.mem_filter] at hc0
  obtain ⟨hc0d, hc0hl⟩ := hc0
  have hc0f : c0 ∈ minimal (detautologize F) ∅ := by
    rw [minimal, Finset.mem_filter]
    refine ⟨hc0d, ?_⟩
    rintro ⟨d, hd, hdc⟩
    rw [Finset.union_empty] at hd
    have hdhl : d.filter (fun l => l.neg = 0) = ∅ := by
      have hsub : d.filter (fun l => l.neg = 0) ⊆ c0.filter (fun l => l.neg = 0) :=
        Finset.filter_subset_filter _ hdc.subset
      rw [hc0hl] at hsub
      exact Finset.subset_empty.1 hsub
    exact hc0min d (Finset.mem_filter.2 ⟨hd, hdhl⟩) hdc
  have hbod : body c0 ∈ bodies (minimal (detautologize F) ∅) :=
    Finset.mem_image_of_mem body hc0f
  have herr : rcnucl (body c0) (minimal (detautologize F) ∅) = .error () := by
    cases hr : rcnucl (body c0) (minimal (detautologize F) ∅) with
    | error e => cases e; rfl
    | ok r =>
      exfalso
      obtain ⟨H, U⟩ := r
      obtain ⟨_, hclosed, _⟩ := rcnuclL_ok_spec hr
      rw [enumClauses_toFinset] at hclosed
      obtain ⟨hd, hhd, _⟩ := hclosed c0 hc0f Finset.subset_union_left
      rw [headOpt_eq_none_iff.2 hc0hl] at hhd
      exact Option.noConfusion hhd
  simp only [reconstruct]
  rw [if_neg]
  intro hall
  obtain ⟨r, hr⟩ := hall (body c0) hbod
  rw [herr] at hr
  exact Except.noConfusion hr

/-- Witness for `reconstruct_headless_raises`: the formula `{()}`
consisting of the empty clause satisfies the hypotheses, and reconstruct
raises on it. -/
theorem reconstruct_headless_raises_witness :
    ((∅ : Clause) ∈ ({∅} : Formula)) ∧ ¬ tautology (∅ : Clause) ∧
    ((∅ : Clause).filter (fun l => l.neg = 0) = ∅) ∧
    reconstruct {∅} = .error () :=
  ⟨by decide, by decide, by decide,
   reconstruct_headless_raises {∅} ∅ (by decide) (by decide) (by decide)⟩

theorem headOpt_eq_of_filter {c : Clause} {h : Lit}
    (hpos : c.filter (fun l => l.neg = 0) = {h}) : headOpt c = some h := by
  rw [headOpt, hpos]
  rfl

theorem minimal_singleton (c : Clause) : minimal {c} ∅ = {c} := by
  rw [minimal, Finset.filter_singleton, if_pos]
  simp only [Finset.union_empty, Finset.mem_singleton]
  rintro ⟨d, rfl, hd⟩
  exact hd.2 hd.1

theorem rcnGo_step {b : Finset Lit} {l : List Clause} {n : Nat}
    {heads h1 : Finset Lit} {usable u1 : Finset Clause}
    (hp : rcnPass b heads usable l = .ok (h1, u1)) :
    rcnGo b l (n + 1) heads usable =
      if h1 = heads then some (.ok (h1, minimal u1 ∅)) else rcnGo b l n h1 u1 := by
  simp only [rcnGo]
  rw [hp]

theorem rcnucl_singleton {c : Clause} {h : Lit}
    (hpos : c.filter (fun l => l.neg = 0) = {h}) :
    rcnucl (body c) {c} = .ok ({h}, {c}) := by
  have hho : headOpt c = some h := headOpt_eq_of_filter hpos
  have hp1 : rcnPass (body c) ∅ ∅ [c] = .ok ({h}, {c}) := by
    simp only [rcnPass]
    rw [if_pos Finset.subset_union_left, hho]
    rfl
  have hp2 : rcnPass (body c) {h} {c} [c] = .ok ({h}, {c}) := by
    simp only [rcnPass]
    rw [if_pos Finset.subset_union_left, hho]
    simp [Finset.insert_eq_self]
  have hfuel : rcnFuel [c] = 2 := by
    simp [rcnFuel, headsUniv, hho]
  have hcomp : rcnGo (body c) [c] 2 ∅ ∅ = some (.ok ({h}, {c})) := by
    rw [rcnGo_step hp1, if_neg (Finset.singleton_ne_empty h),
      rcnGo_step hp2, if_pos rfl, minimal_singleton]
  have hg := rcnGo_eq_some_rcnuclL (body c) [c]
  rw [hfuel, hcomp] at hg
  exact (Option.some.inj hg).symm

theorem optGet_eq {α : Type} {o : Option α} {x : α} (ho : o = some x)
    (hs : o.isSome) : o.get hs = x := by
  subst ho
  rfl

theorem resolve_self_eq_empty {c : Clause} (hnt : ¬ tautology c) : resolve c c = ∅ := by
  rw [resolve]
  cases hf : resolveFind (enumLits c) (enumLits c) with
  | none => exact resolveWith_eq_of_none hf
  | some p =>
    exfalso
    obtain ⟨x, y⟩ := p
    obtain ⟨hx, hy, hcomp⟩ := resolveFind_some hf
    rw [mem_enumLits] at hx hy
    cases hcomp with
    | inl h1 => exact hnt ⟨y, hy, h1 ▸ hx⟩
    | inr h2 => exact hnt ⟨x, hx, h2 ▸ hy⟩

theorem hcloseGo_step_stop {usableL : List Clause} {n : Nat}
    {closure resolved : Finset Clause} (hstop : closure \ resolved = ∅) :
    hcloseGo usableL (n + 1) closure resolved = some (.ok closure) := by
  simp only [hcloseGo]
  rw [if_pos hstop]

theorem hcloseGo_step_go {usableL : List Clause} {n : Nat}
    {closure resolved closure2 : Finset Clause} (hne : ¬ closure \ resolved = ∅)
    (hout : hcOuter usableL closure (enumClauses (closure \ resolved)) = .ok closure2) :
    hcloseGo usableL (n + 1) closure resolved =
      hcloseGo usableL n (minimal closure2 ∅) (resolved ∪ (closure \ resolved)) := by
  simp only [hcloseGo]
  rw [if_neg hne, hout]

theorem hcloseE_singleton {c : Clause} {h : Lit}
    (hpos : c.filter (fun l => l.neg = 0) = {h}) (hnt : ¬ tautology c) :
    hcloseE {h} {c} = .ok {c} := by
  have hho : headOpt c = some h := headOpt_eq_of_filter hpos
  have hhe : headE c = .ok h := headE_ok_iff.2 hho
  have hseed : hcSeed {h} (enumClauses {c}) = .ok {c} := by
    show hcSeed {h} [c] = .ok {c}
    simp [hcSeed, hhe]
  have hresolve : resolve c c = ∅ := resolve_self_eq_empty hnt
  have hinner : hcInner c {c} [c] = .ok {c} := by
    simp [hcInner, hresolve]
    rfl
  have houter : hcOuter [c] {c} (enumClauses (({c} : Finset Clause) \ ∅)) = .ok {c} := by
    rw [Finset.sdiff_empty]
    show hcOuter [c] {c} [c] = .ok {c}
    simp only [hcOuter, hinner]
  have hP : ∃ m, ((hcLitUniv {c} {c}).powerset).card = m + 1 := by
    refine ⟨((hcLitUniv {c} {c}).powerset).card - 1, ?_⟩
    have := Finset.card_powerset (hcLitUniv {c} {c})
    have h2 : 0 < 2 ^ (hcLitUniv {c} {c}).card := Nat.pos_pow_of_pos _ (by omega)
    omega
  obtain ⟨m, hm⟩ := hP
  have hrun : hcloseGo (enumClauses ({c} : Finset Clause))
      (hcFuel (minimal {c} ∅) {c}) (minimal {c} ∅) ∅ = some (.ok {c}) := by
    rw [minimal_singleton]
    show hcloseGo [c] (hcFuel {c} {c}) {c} ∅ = some (.ok {c})
    rw [hcFuel, hm]
    rw [hcloseGo_step_go (by simp) houter, minimal_singleton]
    have hres : ((∅ : Finset Clause) ∪ ({c} \ ∅)) = {c} := by simp
    rw [hres]
    exact hcloseGo_step_stop (Finset.sdiff_self {c})
  rw [hcloseE, hseed]
  exact optGet_eq hrun _

theorem hcloseE_empty_heads {c : Clause} {h : Lit}
    (hpos : c.filter (fun l => l.neg = 0) = {h}) :
    hcloseE ∅ {c} = .ok ∅ := by
  have hhe : headE c = .ok h := headE_ok_iff.2 (headOpt_eq_of_filter hpos)
  have hseed : hcSeed ∅ (enumClauses {c}) = .ok ∅ := by
    show hcSeed ∅ [c] = .ok ∅
    simp [hcSeed, hhe]
  have hme : minimal (∅ : Finset Clause) ∅ = ∅ := by
    rw [minimal]
    exact Finset.filter_empty _
  have hrun : hcloseGo (enumClauses ({c} : Finset Clause))
      (hcFuel (minimal ∅ ∅) {c}) (minimal ∅ ∅) ∅ = some (.ok ∅) := by
    rw [hme, hcFuel]
    exact hcloseGo_step_stop (by simp)
  rw [hcloseE, hseed]
  exact optGet_eq hrun _

theorem minbodiesE_singleton {c : Clause} : minbodiesE {c} ∅ = .ok {body c} := by
  have hwhile : mbWhile {c} [] ∅ (mbFuel {c}) c {c} (insert c ∅) =
      some (.ok ({c}, {body c})) := by
    show (if c = c then some (Except.ok (({c} : Finset Clause),
        (insert (body c) ∅ : Finset (Finset Lit)))) else mbWhile {c} [] ∅ 1 c {c} {c}) =
      some (.ok ({c}, {body c}))
    rw [if_pos rfl]
    rfl
  have houter : mbOuter {c} (enumClauses (∅ : Finset Clause)) ∅ ∅
      (enumClauses ({c} : Finset Clause)) = .ok ({c}, {body c}) := by
    show mbOuter {c} [] ∅ ∅ [c] = .ok ({c}, {body c})
    simp only [mbOuter]
    rw [if_neg (by simp)]
    have hget : (mbWhile {c} [] ∅ (mbFuel {c}) c {c} (insert c ∅)).get
        (mbWhile_isSome {c} [] ∅ c {c} (insert c ∅)) = .ok ({c}, {body c}) :=
      optGet_eq hwhile _
    rw [hget]
  rw [minbodiesE, houter]

theorem head_mem_of_filter {c : Clause} {h : Lit}
    (hpos : c.filter (fun l => l.neg = 0) = {h}) : h ∈ c ∧ h.neg = 0 := by
  have hm : h ∈ c.filter (fun l => l.neg = 0) := hpos ▸ Finset.mem_singleton_self h
  exact ⟨(Finset.mem_filter.1 hm).1, (Finset.mem_filter.1 hm).2⟩

theorem strip_negate_of {l x : Lit} (hne : l.neg ≠ 0) (hs : l.strip = x) :
    x.negate = l := by
  obtain ⟨ln, lv⟩ := l
  obtain ⟨xn, xv⟩ := x
  have hs' : (⟨ln - 1, lv⟩ : Lit) = ⟨xn, xv⟩ := hs
  rw [Lit.mk.injEq] at hs'
  obtain ⟨hs1, hs2⟩ := hs'
  have hne' : ln ≠ 0 := hne
  show (⟨xn + 1, xv⟩ : Lit) = ⟨ln, lv⟩
  rw [Lit.mk.injEq]
  exact ⟨by omega, hs2.symm⟩

theorem head_not_mem_body {c : Clause} {h : Lit}
    (hpos : c.filter (fun l => l.neg = 0) = {h}) (hnt : ¬ tautology c) :
    h ∉ body c := by
  intro hmem
  rw [body, Finset.mem_image] at hmem
  obtain ⟨l, hl, hstrip⟩ := hmem
  rw [Finset.mem_filter] at hl
  obtain ⟨hhc, _⟩ := head_mem_of_filter hpos
  apply hnt
  refine ⟨h, hhc, ?_⟩
  rw [strip_negate_of hl.2 hstrip]
  exact hl.1

theorem rebuild_eq {c : Clause} {h : Lit}
    (hpos : c.filter (fun l => l.neg = 0) = {h}) :
    (body c).image Lit.negate ∪ {h} = c := by
  have h1 : (body c).image Lit.negate = c.filter (fun l => ¬ l.neg = 0) := by
    rw [body, Finset.image_image]
    ext x
    simp only [Finset.mem_image, Finset.mem_filter, Function.comp]
    constructor
    · rintro ⟨l, ⟨hlc, hl0⟩, hlx⟩
      have heq : l.strip.negate = l := strip_negate_of hl0 rfl
      rw [heq] at hlx
      subst hlx
      exact ⟨hlc, hl0⟩
    · intro ⟨hx, hx0⟩
      exact ⟨x, ⟨hx, hx0⟩, strip_negate_of hx0 rfl⟩
  rw [h1, ← hpos, Finset.union_comm]
  exact Finset.filter_union_filter_neg_eq _ c

theorem buildIt_singleton {c : Clause} {h : Lit}
    (hpos : c.filter (fun l => l.neg = 0) = {h}) (hnt : ¬ tautology c) :
    buildIt [h] [body c] = some {c} := by
  simp only [buildIt]
  rw [if_neg (head_not_mem_body hpos hnt)]
  rw [show ((body c).image Lit.negate ∪ {h}) = c from rebuild_eq hpos]
  rfl

theorem selectP_singleton_body {c : Clause} : selectP {c} (body c) [body c] = body c := by
  simp only [selectP]
  rw [if_neg (fun hcon => hcon.2 hcon.1)]

theorem checkBodies_singleton {c : Clause} {h : Lit}
    (hpos : c.filter (fun l => l.neg = 0) = {h}) :
    checkBodies {c} {h} [body c] = .ok false := by
  simp only [checkBodies]
  rw [rcnucl_singleton hpos]
  show (if ({h} : Finset Lit) ≠ {h} then Except.ok true else checkBodies {c} {h} []) =
    .ok false
  rw [if_neg (fun hcon => hcon rfl)]
  rfl

theorem searchCombos_singleton {c : Clause} {h : Lit}
    (hpos : c.filter (fun l => l.neg = 0) = {h}) (hnt : ¬ tautology c) :
    searchCombos (body c) ∅ {h} [h] (body c) ∅ [body c] {c} [[body c]] =
      .ok (some ({c}, allBodiesOf [body c])) := by
  simp only [searchCombos]
  rw [if_neg (not_not_intro (show body c ∪ ∅ ⊆ allBodiesOf [body c] from
    Finset.Subset.refl _))]
  rw [buildIt_singleton hpos hnt]
  show (match rcnucl (body c) (∅ ∪ {c}) with
      | Except.error e => Except.error e
      | Except.ok git =>
        if git.1 ≠ {h} then Except.ok none
        else
          match checkBodies (∅ ∪ {c}) {h} [body c] with
          | Except.error e => Except.error e
          | Except.ok true => Except.ok none
          | Except.ok false =>
            match hcloseE git.1 git.2 with
            | Except.error e => Except.error e
            | Except.ok cl =>
              if {c} = cl then Except.ok (some (({c} : Finset Clause), allBodiesOf [body c]))
              else Except.ok none) =
    Except.ok (some ({c}, allBodiesOf [body c]))
  rw [show (∅ : Formula) ∪ {c} = {c} from rfl]
  rw [rcnucl_singleton hpos]
  show (if ({h} : Finset Lit) ≠ {h} then Except.ok none
    else match checkBodies {c} {h} [body c] with
      | Except.error e => Except.error e
      | Except.ok true => Except.ok none
      | Except.ok false =>
        match hcloseE ({h} : Finset Lit) ({c} : Finset Clause) with
        | Except.error e => Except.error e
        | Except.ok cl =>
          if ({c} : Finset Clause) = cl then
            Except.ok (some (({c} : Finset Clause), allBodiesOf [body c]))
          else Except.ok none) = Except.ok (some ({c}, allBodiesOf [body c]))
  rw [if_neg (fun hcon => hcon rfl), checkBodies_singleton hpos,
    hcloseE_singleton hpos hnt]
  show (if ({c} : Finset Clause) = {c} then
      Except.ok (some (({c} : Finset Clause), allBodiesOf [body c]))
    else Except.ok none) = Except.ok (some ({c}, allBodiesOf [body c]))
  rw [if_pos rfl]

set_option maxHeartbeats 2000000 in
/-- Full trace of `reconstruct` on a one-clause definite non-tautological
formula: the clause is selected, its head is its own reconstruction
candidate, the combination search rebuilds exactly the clause, and the
loop terminates returning it. -/
theorem reconstruct_singleton {c : Clause} {h : Lit}
    (hpos : c.filter (fun l => l.neg = 0) = {h}) (hnt : ¬ tautology c) :
    reconstruct {c} = .ok (some {c}) := by
  have hrcn := rcnucl_singleton hpos
  have hrcnOf : rcnOf {c} (body c) = {h} := by
    rw [rcnOf, hrcn]
  have huclOf : uclOf {c} (body c) = {c} := by
    rw [uclOf, hrcn]
  have hmd : minimal (detautologize {c}) ∅ = {c} := by
    rw [detautologize, Finset.filter_singleton, if_pos hnt, minimal_singleton]
  have hguard : ∀ p ∈ bodies ({c} : Formula), ∃ r, rcnucl p {c} = Except.ok r := by
    intro p hp
    rw [bodies, Finset.image_singleton, Finset.mem_singleton] at hp
    subst hp
    exact ⟨_, hrcn⟩
  have hinb : (bodies ({c} : Formula)).sup id = body c := by
    rw [bodies, Finset.image_singleton, Finset.sup_singleton]
    rfl
  have hhb : (bodies (∅ : Formula)).sup id \ body c = ∅ := by
    rw [show bodies (∅ : Formula) = ∅ from rfl, Finset.sup_empty]
    exact Finset.empty_sdiff _
  have hpre2 : ({body c} : Finset (Finset Lit)).filter
      (fun t => ¬ t ⊆ {h} ∪ body c) = ∅ := by
    rw [Finset.filter_singleton, if_neg (not_not_intro Finset.subset_union_right)]
  have hloop : reconLoop {c} ((bodies ({c} : Formula)).card + 1) (bodies {c}) ∅ ∅ ∅ ∅ =
      some (.ok (some {c})) := by
    rw [show (bodies ({c} : Formula)) = {body c} from by
      rw [bodies, Finset.image_singleton]]
    show reconLoop {c} (1 + 1) {body c} ∅ ∅ ∅ ∅ = some (.ok (some {c}))
    simp only [reconLoop]
    split
    · rename_i heq
      exact List.noConfusion (show [body c] = ([] : List (Finset Lit)) from heq)
    · rename_i p0 rest heq
      have heq' : [body c] = p0 :: rest := heq
      injection heq' with hp0 hrest
      subst hp0
      subst hrest
      rw [show selectP {c} (body c) (body c :: []) = body c from selectP_singleton_body]
      rw [hrcnOf, huclOf]
      simp only [Finset.sdiff_empty, Finset.inter_empty]
      rw [show enumLits ({h} : Finset Lit) = [h] from rfl]
      rw [show ([h] : List Lit).toFinset = {h} from rfl]
      split
      · rename_i e heq2
        exact Except.noConfusion ((show rcnucl (body c ∪ {h}) ∅ =
          Except.ok ((∅ : Finset Lit), (∅ : Finset Clause)) from rfl).symm.trans heq2)
      · rename_i maxr heq2
        have hmx : Except.ok ((∅ : Finset Lit), (∅ : Finset Clause)) = Except.ok maxr :=
          (show rcnucl (body c ∪ {h}) ∅ =
            Except.ok ((∅ : Finset Lit), (∅ : Finset Clause)) from rfl).symm.trans heq2
        injection hmx with hmx2
        subst hmx2
        rw [if_neg (not_not_intro Finset.subset_union_left)]
        split
        · rename_i e heq3
          exact Except.noConfusion ((hcloseE_singleton hpos hnt).symm.trans heq3)
        · rename_i headbodies heq3
          have hhb2 : Except.ok ({c} : Finset Clause) = Except.ok headbodies :=
            (hcloseE_singleton hpos hnt).symm.trans heq3
          injection hhb2 with hhb3
          subst hhb3
          split
          · rename_i e heq4
            exact Except.noConfusion (minbodiesE_singleton.symm.trans heq4)
          · rename_i pbodies heq4
            have hpb : Except.ok ({body c} : Finset (Finset Lit)) = Except.ok pbodies :=
              minbodiesE_singleton.symm.trans heq4
            injection hpb with hpb2
            subst hpb2
            rw [hinb]
            split
            · rename_i e heq5
              exact Except.noConfusion ((hcloseE_empty_heads hpos).symm.trans heq5)
            · rename_i headless heq5
              have hhl : Except.ok (∅ : Finset Clause) = Except.ok headless :=
                (hcloseE_empty_heads hpos).symm.trans heq5
              injection hhl with hhl2
              subst hhl2
              rw [hhb]
              rw [if_neg (fun hcon => hcon rfl)]
              rw [if_neg (show ¬ ({c} : Finset Clause) ∪ ∅ = ∅ by simp)]
              rw [show enumClauses ({body c} : Finset (Finset Lit)) = [body c] from rfl]
              rw [show prodLists [body c] ([h] : List Lit).length = [[body c]] from rfl]
              rw [show ({c} : Finset Clause) ∪ ∅ = {c} from rfl]
              split
              · rename_i e heq6
                exact Except.noConfusion
                  ((searchCombos_singleton hpos hnt).symm.trans heq6)
              · rename_i heq6
                exact Option.noConfusion (Except.ok.inj
                  ((searchCombos_singleton hpos hnt).symm.trans heq6))
              · rename_i it allbodies heq6
                have hsc : Except.ok (some (({c} : Finset Clause), allBodiesOf [body c])) =
                    Except.ok (some (it, allbodies)) :=
                  (searchCombos_singleton hpos hnt).symm.trans heq6
                injection hsc with hsc2
                injection hsc2 with hsc3
                injection hsc3 with hit hab
                subst hit
                subst hab
                rw [hpre2]
                rfl
  simp only [reconstruct]
  rw [hmd, if_pos hguard]
  exact optGet_eq hloop _

set_option maxHeartbeats 8000000 in
/-- Claim C9, counterexample: the claim "reconstruct(G) returns a clause set
equal to G whenever G is single-head and minimal" fails as stated.  The
single-head, minimal, definite, tautology-free formula
`{a -> b, b -> a, b -> c}` is rewritten by reconstruct into the distinct
(though equivalent) formula `{b -> a, a -> b, a -> c}`: the search commits
the head `a` to the body `{b}` before considering `b`. -/
theorem reconstruct_not_idempotent_counterexample :
    issinglehead {{⟨1,0⟩,⟨0,1⟩},{⟨1,1⟩,⟨0,0⟩},{⟨1,1⟩,⟨0,2⟩}} ∧
    minimal {{⟨1,0⟩,⟨0,1⟩},{⟨1,1⟩,⟨0,0⟩},{⟨1,1⟩,⟨0,2⟩}} ∅ =
      {{⟨1,0⟩,⟨0,1⟩},{⟨1,1⟩,⟨0,0⟩},{⟨1,1⟩,⟨0,2⟩}} ∧
    reconstruct {{⟨1,0⟩,⟨0,1⟩},{⟨1,1⟩,⟨0,0⟩},{⟨1,1⟩,⟨0,2⟩}} =
      .ok (some {{⟨1,1⟩,⟨0,0⟩},{⟨1,0⟩,⟨0,1⟩},{⟨1,0⟩,⟨0,2⟩}}) ∧
    ({{⟨1,1⟩,⟨0,0⟩},{⟨1,0⟩,⟨0,1⟩},{⟨1,0⟩,⟨0,2⟩}} : Formula) ≠
      {{⟨1,0⟩,⟨0,1⟩},{⟨1,1⟩,⟨0,0⟩},{⟨1,1⟩,⟨0,2⟩}} :=
  ⟨by decide, by decide, by decide, by decide⟩

/-- Claim C9 (amended): for every formula `G` with at most one clause that
is single-head, minimal, definite and tautology-free, `reconstruct(G)`
returns a clause set equal, as a set of clauses, to `G`.  (The original
claim over all single-head minimal formulas fails: on formulas with several
clauses the search may return a logically equivalent but different set, as
the counterexample shows.) -/
theorem reconstruct_idempotent_small (G : Formula) (_hsh : issinglehead G)
    (_hmin : minimal G ∅ = G) (hcard : G.card ≤ 1) (hdef : definite G)
    (hnt : ∀ c ∈ G, ¬ tautology c) :
    reconstruct G = .ok (some G) := by
  rcases Finset.eq_empty_or_nonempty G with hG | ⟨c, hc⟩
  · subst hG
    decide
  · have hGc : G = {c} := by
      refine Finset.eq_singleton_iff_unique_mem.2 ⟨hc, fun x hx => ?_⟩
      exact Finset.card_le_one.1 hcard x hx c hc
    subst hGc
    obtain ⟨h, hpos⟩ := Finset.card_eq_one.1 (hdef c hc)
    exact reconstruct_singleton hpos (hnt c hc)

/-- Witness for `reconstruct_idempotent_small`: the one-clause formula
`{b -> a}` satisfies all hypotheses and is returned unchanged. -/
theorem reconstruct_idempotent_small_witness :
    issinglehead {{⟨1,0⟩,⟨0,1⟩}} ∧
    minimal {{⟨1,0⟩,⟨0,1⟩}} ∅ = {{⟨1,0⟩,⟨0,1⟩}} ∧
    ({{⟨1,0⟩,⟨0,1⟩}} : Formula).card ≤ 1 ∧
    definite {{⟨1,0⟩,⟨0,1⟩}} ∧
    (∀ c ∈ ({{⟨1,0⟩,⟨0,1⟩}} : Formula), ¬ tautology c) ∧
    reconstruct {{⟨1,0⟩,⟨0,1⟩}} = .ok (some {{⟨1,0⟩,⟨0,1⟩}}) :=
  ⟨by decide, by decide, by decide, by decide, by decide,
   reconstruct_idempotent_small _ (by decide) (by decide) (by decide) (by decide)
     (by decide)⟩
